import Mathlib

set_option maxRecDepth 8192

/-!
A verification development for the model-export core of `pi-llama`
(`convert.py`): the grouped symmetric quantizers (`quantize_q80`,
`quantize_q40`), the int4 serializer (`serialize_int4`), the group-size
backoff loop, and the three binary export routines (`version1_export`,
`version2_export`, `version3_export`) dispatched by `model_export`.

Modelling conventions:
* Real-valued tensor data is embedded as exact rationals (`ℚ`).  Torch
  float32 arithmetic is modelled exactly; the rounding-mode and
  divide-by-zero behaviour that the claims turn on is exactly
  representable (halves, zeros and small integers are exact float32
  values).
* The one genuinely non-real float value the code produces is the NaN
  from `quant = w / scale` when `scale = 0` (an all-zero group).  A float
  that may be NaN is embedded as `Option ℚ` with `none` for NaN.  Casting
  a NaN float to int8 (`torch.Tensor.to (torch.int8)`) is
  platform-dependent, so every definition downstream of that cast is
  parameterised by `nanVal : ℤ`, the unspecified integer the cast yields.
* Machine int8 arithmetic (numpy) is `ℤ` with an explicit wrap into
  `[-128, 127]`.
* File output is modelled structurally: each `serialize_*` call emits one
  `Chunk`; byte-level content is concrete for the header (the only part
  whose bytes the claims inspect).
-/

namespace PiLlama

/-- Maximum of a list of rationals, `0` for the empty list.  Used only on
lists of absolute values / absolute errors (all nonnegative), where the
`0` default agrees with `torch.max` on every nonempty list. -/
def maxList (l : List ℚ) : ℚ := l.foldr max 0

/-- `torch.abs(w).max()` over one group: the maximum absolute value. -/
def absMax (l : List ℚ) : ℚ := maxList (l.map (fun x => |x|))

/-- `torch.round`: round to nearest, ties to even (torch/IEEE default
rounding of `.5` cases). -/
def roundEven (x : ℚ) : ℤ :=
  let f := ⌊x⌋
  let r := x - f
  if r < 1/2 then f
  else if 1/2 < r then f + 1
  else if f % 2 = 0 then f else f + 1

/-- Round to nearest, ties away from zero — the rounding the spec
prescribes ("document choice as round-half-away-from-zero").  Written
from the spec's words, to compare against the source's `torch.round`. -/
def roundHalfAway (x : ℚ) : ℤ :=
  if 0 ≤ x then ⌊x + 1/2⌋ else -⌊-x + 1/2⌋

/-- `w.reshape(-1, gs)`: the list of `gs`-element groups of `w`.  When
`gs ∣ w.length` (asserted by the source) this is an exact partition. -/
def toGroups (gs : ℕ) (l : List ℚ) : List (List ℚ) :=
  (List.range (l.length / gs)).map (fun g => (l.drop (g * gs)).take gs)

/-- Wrap an integer into int8 range `[-128, 127]` (numpy int8 overflow
semantics). -/
def wrap8 (x : ℤ) : ℤ := (x + 128) % 256 - 128

/-- The per-element byte transform of `serialize_int4`:
`np.right_shift(d, 4) + np.left_shift(np.bitwise_and(d, 0x0F), 4)` on
int8.  Arithmetic right shift is floor division by 16; `d & 0x0F` is
`d mod 16`; the left shift wraps in int8. -/
def int4_byte (v : ℤ) : ℤ := wrap8 (Int.fdiv v 16 + wrap8 ((v % 16) * 16))

/-- `serialize_int4`: the bytes written for an int4-quantized tensor.
The source transforms the flattened values elementwise with `int4_byte`
and packs `len(d)` bytes — one byte per logical element. -/
def serialize_int4 (d : List ℤ) : List ℤ := d.map int4_byte

/-- `scale = wmax / 127.0` of one group (`quantize_q80`). -/
def scale80 (g : List ℚ) : ℚ := absMax g / 127

/-- `scale = wmax / 7.0` of one group (`quantize_q40`). -/
def scale40 (g : List ℚ) : ℚ := absMax g / 7

/-- `quant = w / scale[:, None]` of one group in `quantize_q80`.  When
`scale = 0` every element of the group is `0` (since `wmax = 0`), so the
float division `0.0 / 0.0` is NaN: embedded as `none`. -/
def quant80 (g : List ℚ) : List (Option ℚ) :=
  g.map (fun x => if scale80 g = 0 then none else some (x / scale80 g))

/-- `quant = w / scale[:, None]` of one group in `quantize_q40`; NaN as
`none` exactly as in `quant80`. -/
def quant40 (g : List ℚ) : List (Option ℚ) :=
  g.map (fun x => if scale40 g = 0 then none else some (x / scale40 g))

/-- `torch.round(quant).to(torch.int8)`: round a possibly-NaN float and
cast to int8.  Casting NaN is platform-dependent; `nanVal` is the value
that cast yields. -/
def castI8 (nanVal : ℤ) : Option ℚ → ℤ
  | some x => roundEven x
  | none => nanVal

/-- `torch.clamp(·, -7, 7)` on an int8 value. -/
def clamp4 (z : ℤ) : ℤ := min 7 (max (-7) z)

/-- One group of `quantize_q80`: the int8 values, the scale, and the
group's maximum absolute reconstruction error
`torch.abs(int8val.float() * scale - w).max()`. -/
def quantizeGroup80 (nanVal : ℤ) (g : List ℚ) : List ℤ × ℚ × ℚ :=
  let int8val := (quant80 g).map (castI8 nanVal)
  let fp32val := int8val.map (fun z : ℤ => (z : ℚ) * scale80 g)
  let err := maxList ((fp32val.zip g).map (fun p => |p.1 - p.2|))
  (int8val, scale80 g, err)

/-- One group of `quantize_q40`: as `quantizeGroup80` but with scale
`wmax / 7` and the int4 values clamped to `[-7, 7]` after the cast. -/
def quantizeGroup40 (nanVal : ℤ) (g : List ℚ) : List ℤ × ℚ × ℚ :=
  let int4val := ((quant40 g).map (castI8 nanVal)).map clamp4
  let fp32val := int4val.map (fun z : ℤ => (z : ℚ) * scale40 g)
  let err := maxList ((fp32val.zip g).map (fun p => |p.1 - p.2|))
  (int4val, scale40 g, err)

/-- Result of `quantize_q80` / `quantize_q40`: the flattened quantized
integers, the per-group scales, and `maxerr = err.max().item()`. -/
structure QuantResult where
  ints : List ℤ
  scales : List ℚ
  maxerr : ℚ
deriving DecidableEq

/-- `quantize_q80(w, group_size)`.  The source asserts
`w.numel() % group_size == 0` on entry; the claims below carry that
divisibility as a hypothesis. -/
def quantize_q80 (nanVal : ℤ) (w : List ℚ) (gs : ℕ) : QuantResult :=
  let rs := (toGroups gs w).map (quantizeGroup80 nanVal)
  ⟨(rs.map (·.1)).flatten, rs.map (·.2.1), maxList (rs.map (·.2.2))⟩

/-- `quantize_q40(w, group_size)`. -/
def quantize_q40 (nanVal : ℤ) (w : List ℚ) (gs : ℕ) : QuantResult :=
  let rs := (toGroups gs w).map (quantizeGroup40 nanVal)
  ⟨(rs.map (·.1)).flatten, rs.map (·.2.1), maxList (rs.map (·.2.2))⟩

/-- A model tensor: a flat buffer of (exact-rational) float values plus
its leading shape entry (`tensor.shape[0]`, the only shape component the
exporter reads, for `hidden_dim`). -/
structure Tensor where
  shape0 : ℕ
  data : List ℚ
deriving DecidableEq

/-- `model.params`: the integer hyperparameters the header records.
`n_kv_heads` is optional, as in the source
(`p.n_heads if p.n_kv_heads is None else p.n_kv_heads`). -/
structure ModelParams where
  dim : ℤ
  n_layers : ℤ
  n_heads : ℤ
  n_kv_heads : Option ℤ
  vocab_size : ℤ
  max_seq_len : ℤ
deriving DecidableEq

/-- One transformer layer's tensors, as the exporter reads them. -/
structure Layer where
  attention_norm : Tensor
  ffn_norm : Tensor
  wq : Tensor
  wk : Tensor
  wv : Tensor
  wo : Tensor
  w1 : Tensor
  w2 : Tensor
  w3 : Tensor
deriving DecidableEq

/-- The in-memory model handed to the exporter. -/
structure Model where
  params : ModelParams
  layers : List Layer
  norm : Tensor
  tok_embeddings : Tensor
  output : Tensor
deriving DecidableEq

/-- `struct.pack("i", x)` / `struct.pack("I", x)`: 4 little-endian bytes
of the two's-complement 32-bit representation (native byte order of the
x86-64/arm64 hosts the script targets). -/
def le32 (x : ℤ) : List ℕ :=
  let u := (x % 4294967296).toNat
  [u % 256, u / 256 % 256, u / 65536 % 256, u / 16777216 % 256]

/-- The 256-byte header each export writes: magic `"ak42"`, version, the
seven params ints, the shared-classifier flag byte, the group-size int
for v2/v3 (`none` for v1), zero padding to 256
(`pad = 256 - out_file.tell()`). -/
def headerBytes (version : ℤ) (p : ModelParams) (hidden_dim : ℤ)
    (shared : Bool) (group_size : Option ℤ) : List ℕ :=
  let pre :=
    le32 0x616B3432 ++ le32 version ++
    le32 p.dim ++ le32 hidden_dim ++ le32 p.n_layers ++ le32 p.n_heads ++
    le32 (p.n_kv_heads.getD p.n_heads) ++ le32 p.vocab_size ++
    le32 p.max_seq_len ++
    [if shared then 1 else 0] ++
    (group_size.map le32).getD []
  pre ++ List.replicate (256 - pre.length) 0

/-- One `file.write` of the export: the 256-byte header, or one
`serialize_fp32` / `serialize_int8` / `serialize_int4` call.  `fp32`
holds the float values written (4 bytes each), `int8` the int8 bytes,
`int4` the bytes produced by `serialize_int4` (already transformed by
`int4_byte`). -/
inductive Chunk where
  | header : List ℕ → Chunk
  | fp32 : List ℚ → Chunk
  | int8 : List ℤ → Chunk
  | int4 : List ℤ → Chunk
deriving DecidableEq

/-- The group-size backoff loop of `version2_export`/`version3_export`:
`while model.params.dim % group_size != 0: group_size //= 2`.  Modelled
with a fuel argument (structural recursion) so it evaluates in the
kernel; `gs` halvings always suffice to reach `1`, which ends the loop.
The `gs = 0` branch stands for Python's `ZeroDivisionError` (never
reached from `model_export`, whose requested size is 64). -/
def backoffFuel (dim : ℤ) : ℕ → ℕ → ℕ
  | 0, gs => gs
  | fuel + 1, gs =>
    if gs = 0 then 0
    else if dim % (gs : ℤ) = 0 then gs
    else backoffFuel dim fuel (gs / 2)

/-- The effective group size after backoff. -/
def backoff (dim : ℤ) (gs : ℕ) : ℕ := backoffFuel dim gs gs

/-- The `weights` list that `version2_export` and `version3_export`
quantize, in source order: token embedding, then per-layer `wq`, `wk`,
`wv`, `wo`, `w1`, `w2`, `w3` (each fully across layers), with
`model.output` appended only when not shared with the embedding. -/
def quant_weights (m : Model) : List Tensor :=
  [m.tok_embeddings] ++
  m.layers.map (·.wq) ++ m.layers.map (·.wk) ++ m.layers.map (·.wv) ++
  m.layers.map (·.wo) ++ m.layers.map (·.w1) ++ m.layers.map (·.w2) ++
  m.layers.map (·.w3) ++
  (if m.tok_embeddings = m.output then [] else [m.output])

/-- `version1_export`: header then every tensor (norms first, then the
heavy weights) as fp32, in the source's `weights` list order.  The
`layers = []` case is Python's `IndexError` on `model.layers[0]` (in the
source it fires after the 8 magic/version bytes; no claim concerns the
partial file, so the run is modelled as failed). -/
def version1_export (m : Model) : Except String (List Chunk) :=
  match m.layers with
  | [] => .error "IndexError: model.layers[0]"
  | l0 :: _ =>
    let shared := m.tok_embeddings = m.output
    let hdr := headerBytes 1 m.params (l0.w1.shape0 : ℤ) (decide shared) none
    let weights : List Tensor :=
      m.layers.map (·.attention_norm) ++ m.layers.map (·.ffn_norm) ++
      [m.norm] ++
      [m.tok_embeddings] ++
      m.layers.map (·.wq) ++ m.layers.map (·.wk) ++ m.layers.map (·.wv) ++
      m.layers.map (·.wo) ++ m.layers.map (·.w1) ++ m.layers.map (·.w2) ++
      m.layers.map (·.w3) ++
      (if shared then [] else [m.output])
    .ok (Chunk.header hdr :: weights.map (fun w => Chunk.fp32 w.data))

/-- `version2_export`: backoff, divisibility validation (asserted in the
source before the output file is opened — a failure writes no bytes),
header with group size, norms as fp32, then each heavy tensor's Q8_0
integers immediately followed by its scales. -/
def version2_export (nanVal : ℤ) (m : Model) (group_size : ℕ) :
    Except String (List Chunk) :=
  let gs := backoff m.params.dim group_size
  let weights := quant_weights m
  if weights.all (fun w => w.data.length % gs == 0) then
    match m.layers with
    | [] => .error "IndexError: model.layers[0]"
    | l0 :: _ =>
      let hdr := headerBytes 2 m.params (l0.w1.shape0 : ℤ)
        (decide (m.tok_embeddings = m.output)) (some (gs : ℤ))
      let normChunks :=
        m.layers.map (fun l => Chunk.fp32 l.attention_norm.data) ++
        m.layers.map (fun l => Chunk.fp32 l.ffn_norm.data) ++
        [Chunk.fp32 m.norm.data]
      let qChunks := (weights.map (fun w =>
        let r := quantize_q80 nanVal w.data gs
        [Chunk.int8 r.ints, Chunk.fp32 r.scales])).flatten
      .ok (Chunk.header hdr :: (normChunks ++ qChunks))
  else .error "AssertionError: weight numel not a multiple of group_size"

/-- `version3_export`: as `version2_export` but Q4_0, with the int4
values written through `serialize_int4`. -/
def version3_export (nanVal : ℤ) (m : Model) (group_size : ℕ) :
    Except String (List Chunk) :=
  let gs := backoff m.params.dim group_size
  let weights := quant_weights m
  if weights.all (fun w => w.data.length % gs == 0) then
    match m.layers with
    | [] => .error "IndexError: model.layers[0]"
    | l0 :: _ =>
      let hdr := headerBytes 3 m.params (l0.w1.shape0 : ℤ)
        (decide (m.tok_embeddings = m.output)) (some (gs : ℤ))
      let normChunks :=
        m.layers.map (fun l => Chunk.fp32 l.attention_norm.data) ++
        m.layers.map (fun l => Chunk.fp32 l.ffn_norm.data) ++
        [Chunk.fp32 m.norm.data]
      let qChunks := (weights.map (fun w =>
        let r := quantize_q40 nanVal w.data gs
        [Chunk.int4 (serialize_int4 r.ints), Chunk.fp32 r.scales])).flatten
      .ok (Chunk.header hdr :: (normChunks ++ qChunks))
  else .error "AssertionError: weight numel not a multiple of group_size"

/-- `model_export(model, filepath, version)`: dispatch on the version
tag; any version other than 1, 2, 3 raises `ValueError` before any file
is opened.  The quantized exports are called with the source's default
`group_size = 64`. -/
def model_export (nanVal : ℤ) (m : Model) (version : ℤ) :
    Except String (List Chunk) :=
  if version = 1 then version1_export m
  else if version = 2 then version2_export nanVal m 64
  else if version = 3 then version3_export nanVal m 64
  else .error "ValueError: unknown version"

/-- A small concrete model (dim 2, one layer, shared classifier,
`n_kv_heads` unset) used to witness the export theorems. -/
def testLayer : Layer where
  attention_norm := ⟨2, [1, 2]⟩
  ffn_norm := ⟨2, [3, 4]⟩
  wq := ⟨2, [1, 0, 0, 1]⟩
  wk := ⟨2, [1, 2, 3, 4]⟩
  wv := ⟨2, [2, 2, 2, 2]⟩
  wo := ⟨2, [1, 1, 1, 1]⟩
  w1 := ⟨3, [1, 2, 3, 4, 5, 6]⟩
  w2 := ⟨2, [6, 5, 4, 3, 2, 1]⟩
  w3 := ⟨3, [1, 1, 2, 2, 3, 3]⟩

/-- Witness model: shared classifier (`output = tok_embeddings`). -/
def mTest : Model where
  params := { dim := 2, n_layers := 1, n_heads := 2, n_kv_heads := none,
              vocab_size := 4, max_seq_len := 32 }
  layers := [testLayer]
  norm := ⟨2, [1, 2]⟩
  tok_embeddings := ⟨4, [1, 2, 3, 4, 5, 6, 7, 8]⟩
  output := ⟨4, [1, 2, 3, 4, 5, 6, 7, 8]⟩

/-- Witness model: classifier differing from the embedding in one
element. -/
def mTest2 : Model :=
  { mTest with output := ⟨4, [1, 2, 3, 4, 5, 6, 7, 9]⟩ }

/-- Witness model: a heavy tensor (`wq`, 5 elements) whose element count
the group size 2 does not divide. -/
def mOdd : Model :=
  { mTest with layers := [{ testLayer with wq := ⟨1, [1, 1, 1, 1, 1]⟩ }] }

/-! ### Helper lemmas: list maxima -/

theorem maxList_nonneg (l : List ℚ) : 0 ≤ maxList l := by
  induction l with
  | nil => simp [maxList]
  | cons a t ih => simp only [maxList, List.foldr_cons] at *; exact le_max_of_le_right ih

theorem le_maxList {l : List ℚ} {a : ℚ} (h : a ∈ l) : a ≤ maxList l := by
  induction l with
  | nil => cases h
  | cons b t ih =>
    rcases List.mem_cons.mp h with rfl | h
    · exact le_max_left _ _
    · exact le_trans (ih h) (le_max_right _ _)

theorem maxList_mem {l : List ℚ} (hne : l ≠ []) (hpos : ∀ x ∈ l, 0 ≤ x) :
    maxList l ∈ l := by
  induction l with
  | nil => exact absurd rfl hne
  | cons a t ih =>
    by_cases ht : t = []
    · subst ht
      have : maxList [a] = a := max_eq_left (hpos a (by simp))
      simp [this]
    · have hm : maxList (a :: t) = max a (maxList t) := rfl
      rcases max_choice a (maxList t) with h | h
      · rw [hm, h]; exact List.mem_cons_self a t
      · rw [hm, h]
        exact List.mem_cons_of_mem _ (ih ht (fun x hx => hpos x (List.mem_cons_of_mem _ hx)))

theorem abs_le_absMax {l : List ℚ} {x : ℚ} (h : x ∈ l) : |x| ≤ absMax l :=
  le_maxList (List.mem_map_of_mem _ h)

theorem absMax_nonneg (l : List ℚ) : 0 ≤ absMax l := maxList_nonneg _

theorem absMax_pos {l : List ℚ} (h : absMax l ≠ 0) : 0 < absMax l :=
  lt_of_le_of_ne (absMax_nonneg l) (Ne.symm h)

theorem eq_zero_of_absMax_eq_zero {l : List ℚ} (h : absMax l = 0) :
    ∀ x ∈ l, x = 0 := by
  intro x hx
  have := abs_le_absMax hx
  rw [h] at this
  exact abs_eq_zero.mp (le_antisymm this (abs_nonneg x))

/-! ### Helper lemmas: group and flatten indexing -/

theorem toGroups_length (gs : ℕ) (l : List ℚ) :
    (toGroups gs l).length = l.length / gs := by simp [toGroups]

theorem toGroups_getElem? (gs : ℕ) (l : List ℚ) (g : ℕ)
    (hg : g < l.length / gs) :
    (toGroups gs l)[g]? = some ((l.drop (g * gs)).take gs) := by
  simp [toGroups, List.getElem?_map, List.getElem?_range, hg]

theorem toGroups_getD (gs : ℕ) (l : List ℚ) (g : ℕ)
    (hg : g < l.length / gs) :
    (toGroups gs l).getD g [] = (l.drop (g * gs)).take gs := by
  rw [List.getD_eq_getD_get?, List.get?_eq_getElem?, toGroups_getElem? gs l g hg]
  rfl

theorem flatten_getD (gs : ℕ) (hgs : 0 < gs) :
    ∀ (L : List (List ℤ)), (∀ c ∈ L, c.length = gs) → ∀ i : ℕ,
      L.flatten.getD i 0 = (L.getD (i / gs) []).getD (i % gs) 0 := by
  intro L
  induction L with
  | nil => intro _ i; simp
  | cons c T ih =>
    intro h i
    have hc : c.length = gs := h c (by simp)
    by_cases hi : i < gs
    · rw [List.flatten_cons, List.getD_append _ _ _ _ (by rw [hc]; exact hi),
        Nat.div_eq_of_lt hi, Nat.mod_eq_of_lt hi]
      rfl
    · push_neg at hi
      obtain ⟨j, rfl⟩ : ∃ j, i = j + gs := ⟨i - gs, by omega⟩
      rw [List.flatten_cons, List.getD_append_right _ _ _ _ (by rw [hc]; omega), hc,
        Nat.add_sub_cancel, Nat.add_div_right _ hgs, Nat.add_mod_right,
        List.getD_cons_succ]
      exact ih (fun x hx => h x (List.mem_cons_of_mem _ hx)) j

theorem toGroups_mem_length {gs : ℕ} {l : List ℚ} (hgs : 0 < gs)
    (hdvd : gs ∣ l.length) {c : List ℚ} (hc : c ∈ toGroups gs l) :
    c.length = gs := by
  obtain ⟨k, hk⟩ := hdvd
  simp only [toGroups, List.mem_map, List.mem_range] at hc
  obtain ⟨g, hg, rfl⟩ := hc
  rw [hk, Nat.mul_div_cancel_left _ hgs] at hg
  rw [List.length_take, List.length_drop, hk]
  have h1 : (g + 1) * gs ≤ k * gs := Nat.mul_le_mul_right gs hg
  rw [Nat.succ_mul] at h1
  rw [Nat.mul_comm] at hk ⊢
  omega

theorem div_lt_groups {gs : ℕ} {l : List ℚ} (hgs : 0 < gs)
    (hdvd : gs ∣ l.length) {i : ℕ} (hi : i < l.length) :
    i / gs < l.length / gs := by
  obtain ⟨k, hk⟩ := hdvd
  rw [hk, Nat.mul_div_cancel_left _ hgs]
  exact Nat.div_lt_of_lt_mul (hk ▸ hi)

theorem toGroups_getD_getD {gs : ℕ} {l : List ℚ} (hgs : 0 < gs)
    (hdvd : gs ∣ l.length) {i : ℕ} (hi : i < l.length) :
    ((toGroups gs l).getD (i / gs) []).getD (i % gs) 0 = l.getD i 0 := by
  rw [toGroups_getD gs l _ (div_lt_groups hgs hdvd hi)]
  have hmod : i % gs < gs := Nat.mod_lt _ hgs
  have hix : i / gs * gs + i % gs = i :=
    Nat.mul_comm gs (i / gs) ▸ Nat.div_add_mod i gs
  have h3 : ((l.drop (i / gs * gs)).take gs)[i % gs]? = l[i]? := by
    rw [List.getElem?_take_of_lt hmod, List.getElem?_drop, hix]
  rw [List.getD_eq_getD_get?, List.get?_eq_getElem?, h3,
    List.getD_eq_getD_get?, List.get?_eq_getElem?]

theorem toGroups_getD_mem {gs : ℕ} {l : List ℚ} (g : ℕ)
    (hg : g < l.length / gs) :
    (toGroups gs l).getD g [] ∈ toGroups gs l := by
  have hlen : g < (toGroups gs l).length := by rw [toGroups_length]; exact hg
  rw [List.getD_eq_getElem _ _ hlen]
  exact List.getElem_mem hlen

/-! ### Helper lemmas: one quantization group -/

theorem quantizeGroup80_eq (nv : ℤ) (g : List ℚ) :
    quantizeGroup80 nv g =
      ((quant80 g).map (castI8 nv), scale80 g,
        maxList (((((quant80 g).map (castI8 nv)).map fun z : ℤ => (z : ℚ) * scale80 g).zip g).map
          fun p => |p.1 - p.2|)) := rfl

theorem quantizeGroup40_eq (nv : ℤ) (g : List ℚ) :
    quantizeGroup40 nv g =
      (((quant40 g).map (castI8 nv)).map clamp4, scale40 g,
        maxList ((((((quant40 g).map (castI8 nv)).map clamp4).map fun z : ℤ => (z : ℚ) * scale40 g).zip g).map
          fun p => |p.1 - p.2|)) := rfl

theorem quantizeGroup80_ints_length (nv : ℤ) (g : List ℚ) :
    (quantizeGroup80 nv g).1.length = g.length := by
  rw [quantizeGroup80_eq]
  simp [quant80]

theorem quantizeGroup40_ints_length (nv : ℤ) (g : List ℚ) :
    (quantizeGroup40 nv g).1.length = g.length := by
  rw [quantizeGroup40_eq]
  simp [quant40]

theorem groupErr_bound (ints : List ℤ) (scale : ℚ) (g : List ℚ)
    (hlen : ints.length = g.length) {j : ℕ} (hj : j < g.length) :
    |(ints.getD j 0 : ℚ) * scale - g.getD j 0| ≤
      maxList (((ints.map fun z : ℤ => (z : ℚ) * scale).zip g).map fun p => |p.1 - p.2|) := by
  have hfp : (ints.map fun z : ℤ => (z : ℚ) * scale).length = g.length := by
    simp [hlen]
  apply le_maxList
  have hjl : j < (((ints.map fun z : ℤ => (z : ℚ) * scale).zip g).map
      fun p => |p.1 - p.2|).length := by
    simp [List.length_zip, hfp]
    omega
  have hv : ((((ints.map fun z : ℤ => (z : ℚ) * scale).zip g).map
        fun p => |p.1 - p.2|)[j]) =
      |(ints.getD j 0 : ℚ) * scale - g.getD j 0| := by
    rw [List.getElem_map, List.getElem_zip, List.getElem_map,
      List.getD_eq_getElem _ _ (hlen ▸ hj), List.getD_eq_getElem _ _ hj]
  exact hv ▸ List.getElem_mem _

theorem groupErr_attained (ints : List ℤ) (scale : ℚ) (g : List ℚ)
    (hlen : ints.length = g.length) (hne : g ≠ []) :
    ∃ j, j < g.length ∧ |(ints.getD j 0 : ℚ) * scale - g.getD j 0| =
      maxList (((ints.map fun z : ℤ => (z : ℚ) * scale).zip g).map fun p => |p.1 - p.2|) := by
  have hLlen : ((((ints.map fun z : ℤ => (z : ℚ) * scale).zip g).map fun p => |p.1 - p.2|)).length
      = g.length := by simp [List.length_zip, hlen]
  have hLne : (((ints.map fun z : ℤ => (z : ℚ) * scale).zip g).map fun p => |p.1 - p.2|) ≠ [] := by
    intro h
    exact hne (List.length_eq_zero.mp (by rw [← hLlen, h]; rfl))
  have hLpos : ∀ x ∈ (((ints.map fun z : ℤ => (z : ℚ) * scale).zip g).map fun p => |p.1 - p.2|),
      0 ≤ x := by
    intro x hx
    obtain ⟨p, _, rfl⟩ := List.mem_map.mp hx
    exact abs_nonneg _
  obtain ⟨j, hjl, hjv⟩ := List.getElem_of_mem (maxList_mem hLne hLpos)
  have hj : j < g.length := hLlen ▸ hjl
  refine ⟨j, hj, ?_⟩
  have hv : ((((ints.map fun z : ℤ => (z : ℚ) * scale).zip g).map
        fun p => |p.1 - p.2|)[j]) =
      |(ints.getD j 0 : ℚ) * scale - g.getD j 0| := by
    rw [List.getElem_map, List.getElem_zip, List.getElem_map,
      List.getD_eq_getElem _ _ (hlen ▸ hj), List.getD_eq_getElem _ _ hj]
  rw [← hjv, hv]


theorem quantizeGroup80_err_bound (nv : ℤ) (g : List ℚ) {j : ℕ} (hj : j < g.length) :
    |((quantizeGroup80 nv g).1.getD j 0 : ℚ) * (quantizeGroup80 nv g).2.1 - g.getD j 0| ≤
      (quantizeGroup80 nv g).2.2 := by
  have h := groupErr_bound ((quantizeGroup80 nv g).1) ((quantizeGroup80 nv g).2.1) g
    (quantizeGroup80_ints_length nv g) hj
  simpa only [quantizeGroup80_eq] using h

theorem quantizeGroup40_err_bound (nv : ℤ) (g : List ℚ) {j : ℕ} (hj : j < g.length) :
    |((quantizeGroup40 nv g).1.getD j 0 : ℚ) * (quantizeGroup40 nv g).2.1 - g.getD j 0| ≤
      (quantizeGroup40 nv g).2.2 := by
  have h := groupErr_bound ((quantizeGroup40 nv g).1) ((quantizeGroup40 nv g).2.1) g
    (quantizeGroup40_ints_length nv g) hj
  simpa only [quantizeGroup40_eq] using h

theorem quantizeGroup80_err_attained (nv : ℤ) (g : List ℚ) (hne : g ≠ []) :
    ∃ j, j < g.length ∧
      |((quantizeGroup80 nv g).1.getD j 0 : ℚ) * (quantizeGroup80 nv g).2.1 - g.getD j 0| =
        (quantizeGroup80 nv g).2.2 := by
  have h := groupErr_attained ((quantizeGroup80 nv g).1) ((quantizeGroup80 nv g).2.1) g
    (quantizeGroup80_ints_length nv g) hne
  simpa only [quantizeGroup80_eq] using h

theorem quantizeGroup40_err_attained (nv : ℤ) (g : List ℚ) (hne : g ≠ []) :
    ∃ j, j < g.length ∧
      |((quantizeGroup40 nv g).1.getD j 0 : ℚ) * (quantizeGroup40 nv g).2.1 - g.getD j 0| =
        (quantizeGroup40 nv g).2.2 := by
  have h := groupErr_attained ((quantizeGroup40 nv g).1) ((quantizeGroup40 nv g).2.1) g
    (quantizeGroup40_ints_length nv g) hne
  simpa only [quantizeGroup40_eq] using h

theorem map_getD_of_lt {α β : Type} (f : α → β) (l : List α) {n : ℕ}
    (h : n < l.length) (d : β) (d' : α) :
    (l.map f).getD n d = f (l.getD n d') := by
  rw [List.getD_eq_getElem _ _ (by simpa using h), List.getElem_map,
    List.getD_eq_getElem _ _ h]

theorem quantize_q80_ints_getD (nv : ℤ) {w : List ℚ} {gs : ℕ} (hgs : 0 < gs)
    (hdvd : gs ∣ w.length) {i : ℕ} (hi : i < w.length) :
    (quantize_q80 nv w gs).ints.getD i 0 =
      (quantizeGroup80 nv ((w.drop (i / gs * gs)).take gs)).1.getD (i % gs) 0 := by
  have hmm : ∀ c ∈ ((toGroups gs w).map (quantizeGroup80 nv)).map (·.1), c.length = gs := by
    intro c hc
    simp only [List.map_map, List.mem_map, Function.comp] at hc
    obtain ⟨c', hc', rfl⟩ := hc
    rw [quantizeGroup80_ints_length]
    exact toGroups_mem_length hgs hdvd hc'
  show (((toGroups gs w).map (quantizeGroup80 nv)).map (·.1)).flatten.getD i 0 = _
  rw [flatten_getD gs hgs _ hmm i, List.map_map,
    map_getD_of_lt ((·.1) ∘ quantizeGroup80 nv) (toGroups gs w)
      (by rw [toGroups_length]; exact div_lt_groups hgs hdvd hi) [] [],
    Function.comp_apply, toGroups_getD _ _ _ (div_lt_groups hgs hdvd hi)]

theorem quantize_q40_ints_getD (nv : ℤ) {w : List ℚ} {gs : ℕ} (hgs : 0 < gs)
    (hdvd : gs ∣ w.length) {i : ℕ} (hi : i < w.length) :
    (quantize_q40 nv w gs).ints.getD i 0 =
      (quantizeGroup40 nv ((w.drop (i / gs * gs)).take gs)).1.getD (i % gs) 0 := by
  have hmm : ∀ c ∈ ((toGroups gs w).map (quantizeGroup40 nv)).map (·.1), c.length = gs := by
    intro c hc
    simp only [List.map_map, List.mem_map, Function.comp] at hc
    obtain ⟨c', hc', rfl⟩ := hc
    rw [quantizeGroup40_ints_length]
    exact toGroups_mem_length hgs hdvd hc'
  show (((toGroups gs w).map (quantizeGroup40 nv)).map (·.1)).flatten.getD i 0 = _
  rw [flatten_getD gs hgs _ hmm i, List.map_map,
    map_getD_of_lt ((·.1) ∘ quantizeGroup40 nv) (toGroups gs w)
      (by rw [toGroups_length]; exact div_lt_groups hgs hdvd hi) [] [],
    Function.comp_apply, toGroups_getD _ _ _ (div_lt_groups hgs hdvd hi)]

theorem quantize_q80_scales_getD (nv : ℤ) {w : List ℚ} {gs : ℕ}
    {g : ℕ} (hg : g < w.length / gs) :
    (quantize_q80 nv w gs).scales.getD g 0 =
      (quantizeGroup80 nv ((w.drop (g * gs)).take gs)).2.1 := by
  show (((toGroups gs w).map (quantizeGroup80 nv)).map (·.2.1)).getD g 0 = _
  rw [List.map_map,
    map_getD_of_lt ((·.2.1) ∘ quantizeGroup80 nv) (toGroups gs w)
      (by rw [toGroups_length]; exact hg) 0 [],
    Function.comp_apply, toGroups_getD _ _ _ hg]

theorem quantize_q40_scales_getD (nv : ℤ) {w : List ℚ} {gs : ℕ}
    {g : ℕ} (hg : g < w.length / gs) :
    (quantize_q40 nv w gs).scales.getD g 0 =
      (quantizeGroup40 nv ((w.drop (g * gs)).take gs)).2.1 := by
  show (((toGroups gs w).map (quantizeGroup40 nv)).map (·.2.1)).getD g 0 = _
  rw [List.map_map,
    map_getD_of_lt ((·.2.1) ∘ quantizeGroup40 nv) (toGroups gs w)
      (by rw [toGroups_length]; exact hg) 0 [],
    Function.comp_apply, toGroups_getD _ _ _ hg]

theorem quantize_q80_err_le (nv : ℤ) {w : List ℚ} {gs : ℕ} {g : ℕ}
    (hg : g < w.length / gs) :
    (quantizeGroup80 nv ((w.drop (g * gs)).take gs)).2.2 ≤
      (quantize_q80 nv w gs).maxerr := by
  show _ ≤ maxList (((toGroups gs w).map (quantizeGroup80 nv)).map (·.2.2))
  apply le_maxList
  rw [List.map_map]
  exact List.mem_map.mpr ⟨(toGroups gs w).getD g [], toGroups_getD_mem g hg,
    by rw [toGroups_getD _ _ _ hg]; rfl⟩

theorem quantize_q40_err_le (nv : ℤ) {w : List ℚ} {gs : ℕ} {g : ℕ}
    (hg : g < w.length / gs) :
    (quantizeGroup40 nv ((w.drop (g * gs)).take gs)).2.2 ≤
      (quantize_q40 nv w gs).maxerr := by
  show _ ≤ maxList (((toGroups gs w).map (quantizeGroup40 nv)).map (·.2.2))
  apply le_maxList
  rw [List.map_map]
  exact List.mem_map.mpr ⟨(toGroups gs w).getD g [], toGroups_getD_mem g hg,
    by rw [toGroups_getD _ _ _ hg]; rfl⟩

theorem groups_pos {w : List ℚ} {gs : ℕ} (hgs : 0 < gs) (hdvd : gs ∣ w.length)
    (hne : w ≠ []) : 0 < w.length / gs := by
  obtain ⟨k, hk⟩ := hdvd
  have : w.length ≠ 0 := fun h => hne (List.length_eq_zero.mp h)
  rw [hk, Nat.mul_div_cancel_left _ hgs]
  rcases Nat.eq_zero_or_pos k with rfl | h
  · rw [Nat.mul_zero] at hk; exact absurd hk this
  · exact h

theorem quantize_q80_maxerr_attained (nv : ℤ) {w : List ℚ} {gs : ℕ} (hgs : 0 < gs)
    (hdvd : gs ∣ w.length) (hne : w ≠ []) :
    ∃ g, g < w.length / gs ∧
      (quantizeGroup80 nv ((w.drop (g * gs)).take gs)).2.2 =
        (quantize_q80 nv w gs).maxerr := by
  have hEne : ((toGroups gs w).map ((·.2.2) ∘ quantizeGroup80 nv)) ≠ [] := by
    intro h
    have := congrArg List.length h
    simp [toGroups_length] at this
    have := groups_pos hgs hdvd hne
    omega
  have hEpos : ∀ x ∈ (toGroups gs w).map ((·.2.2) ∘ quantizeGroup80 nv), 0 ≤ x := by
    intro x hx
    obtain ⟨c, _, rfl⟩ := List.mem_map.mp hx
    simp only [Function.comp_apply, quantizeGroup80_eq]
    exact maxList_nonneg _
  obtain ⟨g, hgl, hgv⟩ := List.getElem_of_mem (maxList_mem hEne hEpos)
  have hglen : g < w.length / gs := by
    rw [List.length_map, toGroups_length] at hgl
    exact hgl
  refine ⟨g, hglen, ?_⟩
  have h1 : ((toGroups gs w).map ((·.2.2) ∘ quantizeGroup80 nv))[g] =
      (quantizeGroup80 nv ((w.drop (g * gs)).take gs)).2.2 := by
    rw [List.getElem_map, ← toGroups_getD _ _ _ hglen,
      List.getD_eq_getElem _ _ (by rw [toGroups_length]; exact hglen)]
    rfl
  have h2 : (quantize_q80 nv w gs).maxerr =
      maxList ((toGroups gs w).map ((·.2.2) ∘ quantizeGroup80 nv)) := by
    show maxList (((toGroups gs w).map (quantizeGroup80 nv)).map (·.2.2)) = _
    rw [List.map_map]
  rw [h2, ← hgv, h1]

theorem quantize_q40_maxerr_attained (nv : ℤ) {w : List ℚ} {gs : ℕ} (hgs : 0 < gs)
    (hdvd : gs ∣ w.length) (hne : w ≠ []) :
    ∃ g, g < w.length / gs ∧
      (quantizeGroup40 nv ((w.drop (g * gs)).take gs)).2.2 =
        (quantize_q40 nv w gs).maxerr := by
  have hEne : ((toGroups gs w).map ((·.2.2) ∘ quantizeGroup40 nv)) ≠ [] := by
    intro h
    have := congrArg List.length h
    simp [toGroups_length] at this
    have := groups_pos hgs hdvd hne
    omega
  have hEpos : ∀ x ∈ (toGroups gs w).map ((·.2.2) ∘ quantizeGroup40 nv), 0 ≤ x := by
    intro x hx
    obtain ⟨c, _, rfl⟩ := List.mem_map.mp hx
    simp only [Function.comp_apply, quantizeGroup40_eq]
    exact maxList_nonneg _
  obtain ⟨g, hgl, hgv⟩ := List.getElem_of_mem (maxList_mem hEne hEpos)
  have hglen : g < w.length / gs := by
    rw [List.length_map, toGroups_length] at hgl
    exact hgl
  refine ⟨g, hglen, ?_⟩
  have h1 : ((toGroups gs w).map ((·.2.2) ∘ quantizeGroup40 nv))[g] =
      (quantizeGroup40 nv ((w.drop (g * gs)).take gs)).2.2 := by
    rw [List.getElem_map, ← toGroups_getD _ _ _ hglen,
      List.getD_eq_getElem _ _ (by rw [toGroups_length]; exact hglen)]
    rfl
  have h2 : (quantize_q40 nv w gs).maxerr =
      maxList ((toGroups gs w).map ((·.2.2) ∘ quantizeGroup40 nv)) := by
    show maxList (((toGroups gs w).map (quantizeGroup40 nv)).map (·.2.2)) = _
    rw [List.map_map]
  rw [h2, ← hgv, h1]


theorem roundEven_def (x : ℚ) :
    roundEven x =
      if x - ⌊x⌋ < 1/2 then ⌊x⌋
      else if 1/2 < x - ⌊x⌋ then ⌊x⌋ + 1
      else if ⌊x⌋ % 2 = 0 then ⌊x⌋ else ⌊x⌋ + 1 := rfl

theorem roundEven_le {x : ℚ} {n : ℤ} (h : x ≤ n) : roundEven x ≤ n := by
  have hfl : ⌊x⌋ ≤ n := by
    rw [← Int.floor_intCast (α := ℚ) n]
    exact Int.floor_le_floor h
  have hstep : 1/2 ≤ x - ⌊x⌋ → ⌊x⌋ + 1 ≤ n := by
    intro hr
    have h2 : (⌊x⌋ : ℚ) < n := by linarith
    exact Int.lt_iff_add_one_le.mp (by exact_mod_cast h2)
  rw [roundEven_def]
  split_ifs with h1 h2 h3
  · exact hfl
  · exact hstep (le_of_lt h2)
  · exact hfl
  · exact hstep (by push_neg at h1; linarith)

theorem le_roundEven {x : ℚ} {n : ℤ} (h : (n : ℚ) ≤ x) : n ≤ roundEven x := by
  have hfl : n ≤ ⌊x⌋ := Int.le_floor.mpr h
  rw [roundEven_def]
  split_ifs <;> omega

theorem quantizeGroup80_scale (nv : ℤ) (g : List ℚ) :
    (quantizeGroup80 nv g).2.1 = scale80 g := rfl

theorem quantizeGroup40_scale (nv : ℤ) (g : List ℚ) :
    (quantizeGroup40 nv g).2.1 = scale40 g := rfl

theorem quantizeGroup80_ints_getD_of_nz (nv : ℤ) (g : List ℚ)
    (hnz : absMax g ≠ 0) {j : ℕ} (hj : j < g.length) :
    (quantizeGroup80 nv g).1.getD j 0 = roundEven (g.getD j 0 / scale80 g) := by
  have hs : scale80 g ≠ 0 := div_ne_zero hnz (by norm_num)
  have hq : (quant80 g).length = g.length := by simp [quant80]
  have h1 : (quantizeGroup80 nv g).1 = (quant80 g).map (castI8 nv) := rfl
  rw [h1, map_getD_of_lt (castI8 nv) (quant80 g) (by rw [hq]; exact hj) 0 none]
  unfold quant80
  rw [map_getD_of_lt _ g hj none 0, if_neg hs]
  rfl

theorem quantizeGroup40_ints_getD_of_nz (nv : ℤ) (g : List ℚ)
    (hnz : absMax g ≠ 0) {j : ℕ} (hj : j < g.length) :
    (quantizeGroup40 nv g).1.getD j 0 = clamp4 (roundEven (g.getD j 0 / scale40 g)) := by
  have hs : scale40 g ≠ 0 := div_ne_zero hnz (by norm_num)
  have hq : (quant40 g).length = g.length := by simp [quant40]
  have hq2 : ((quant40 g).map (castI8 nv)).length = g.length := by simp [hq]
  have h1 : (quantizeGroup40 nv g).1 = ((quant40 g).map (castI8 nv)).map clamp4 := rfl
  rw [h1, map_getD_of_lt clamp4 _ (by rw [hq2]; exact hj) 0 0,
    map_getD_of_lt (castI8 nv) (quant40 g) (by rw [hq]; exact hj) 0 none]
  unfold quant40
  rw [map_getD_of_lt _ g hj none 0, if_neg hs]
  rfl

theorem getD_mem_of_lt {l : List ℚ} {j : ℕ} (hj : j < l.length) :
    l.getD j 0 ∈ l := by
  rw [List.getD_eq_getElem _ _ hj]
  exact List.getElem_mem hj

theorem quantizeGroup80_ints_range (nv : ℤ) (g : List ℚ)
    (hnz : absMax g ≠ 0) {j : ℕ} (hj : j < g.length) :
    -127 ≤ (quantizeGroup80 nv g).1.getD j 0 ∧
      (quantizeGroup80 nv g).1.getD j 0 ≤ 127 := by
  rw [quantizeGroup80_ints_getD_of_nz nv g hnz hj]
  have hpos : 0 < scale80 g := div_pos (absMax_pos hnz) (by norm_num)
  have habs : |g.getD j 0| ≤ absMax g := abs_le_absMax (getD_mem_of_lt hj)
  have hsc : (127 : ℚ) * scale80 g = absMax g := by
    unfold scale80
    field_simp
  have hup : g.getD j 0 / scale80 g ≤ ((127 : ℤ) : ℚ) := by
    rw [div_le_iff₀ hpos]
    push_cast
    nlinarith [le_abs_self (g.getD j 0)]
  have hlo : (((-127 : ℤ)) : ℚ) ≤ g.getD j 0 / scale80 g := by
    rw [le_div_iff₀ hpos]
    push_cast
    nlinarith [neg_abs_le (g.getD j 0)]
  exact ⟨le_roundEven hlo, roundEven_le hup⟩

theorem clamp4_range (z : ℤ) : -7 ≤ clamp4 z ∧ clamp4 z ≤ 7 := by
  unfold clamp4
  omega

theorem idx_lt {l : List ℚ} {gs g j : ℕ} (hgs : 0 < gs) (hdvd : gs ∣ l.length)
    (hg : g < l.length / gs) (hj : j < gs) : j + g * gs < l.length := by
  obtain ⟨k, hk⟩ := hdvd
  rw [hk, Nat.mul_div_cancel_left _ hgs] at hg
  have h1 : (g + 1) * gs ≤ k * gs := Nat.mul_le_mul_right gs hg
  rw [Nat.succ_mul] at h1
  rw [Nat.mul_comm k gs] at h1
  rw [hk]
  omega


/-- C1 (refuted; the code contradicts its own comment): `serialize_int4`
does not pack two int4 values per byte — it writes one byte per value,
transforming each element `d` to `(d >> 4) + ((d & 0x0F) << 4)`.  On the
two-value input `[1, 2]` it writes the two bytes `[16, 32]`, not one. -/
theorem serialize_int4_one_byte_per_value :
    serialize_int4 [1, 2] = [16, 32] ∧
    ∀ d : List ℤ, (serialize_int4 d).length = d.length := by
  constructor
  · decide
  · intro d
    simp [serialize_int4]

/-- C2 (refuted; the code omits the guard its spec requires): for an
all-zero group the scale is `0` and the group error contribution is `0`,
but the intermediate `quant = w / scale` is the NaN `0.0 / 0.0` (`none`
in the embedding), and the quantized values are the platform-dependent
result `nv` of casting NaN to int8 (clamped, for the 4-bit codec) — not
the `0` the claim requires. -/
theorem zero_group_quant_is_nan :
    quant80 [0, 0] = [none, none] ∧ quant40 [0, 0] = [none, none] ∧
    scale80 [0, 0] = 0 ∧ scale40 [0, 0] = 0 ∧
    (∀ nv : ℤ, quantizeGroup80 nv [0, 0] = ([nv, nv], 0, 0)) ∧
    (∀ nv : ℤ, quantizeGroup40 nv [0, 0] = ([clamp4 nv, clamp4 nv], 0, 0)) := by
  refine ⟨by with_unfolding_all decide, by with_unfolding_all decide,
    by with_unfolding_all decide, by with_unfolding_all decide, ?_, ?_⟩
  · intro nv
    simp [quantizeGroup80, quant80, scale80, absMax, maxList, castI8]
  · intro nv
    simp [quantizeGroup40, quant40, scale40, absMax, maxList, castI8]

/-- C3 (counterexample): on the group `[1, 254]` the 8-bit quantizer
has scale `2`, and `1 / 2 = 0.5` rounds to `0` (`torch.round`, ties to
even), while the claim's round-half-away-from-zero would give `1`. -/
theorem quantize_q80_not_round_half_away :
    (quantize_q80 0 [1, 254] 2).scales.getD 0 0 = 2 ∧
    (quantize_q80 0 [1, 254] 2).ints.getD 0 0 = 0 ∧
    roundHalfAway (([1, 254] : List ℚ).getD 0 0 /
      (quantize_q80 0 [1, 254] 2).scales.getD 0 0) = 1 ∧
    (0 : ℤ) ≠ 1 := by
  refine ⟨by with_unfolding_all decide, by with_unfolding_all decide,
    by with_unfolding_all decide, by decide⟩

/-- C3 (amended): for every group with nonzero `wmax`, each quantized
integer is the element divided by the group scale (`wmax / 127` resp.
`wmax / 7`), rounded to the nearest integer with ties to even
(`torch.round`) — not half-away-from-zero — then, for the 4-bit codec
only, clamped to `[-7, 7]`; the 8-bit codec needs no clamp and all
outputs lie in `[-127, 127]` (resp. `[-7, 7]`). -/
theorem quantize_rounds_half_even_and_clamps (nv : ℤ) (w : List ℚ) (gs : ℕ)
    (hgs : 0 < gs) (hdvd : gs ∣ w.length)
    (hnz : ∀ c ∈ toGroups gs w, absMax c ≠ 0) :
    ∀ i, i < w.length →
      ((quantize_q80 nv w gs).scales.getD (i / gs) 0 =
          absMax ((w.drop (i / gs * gs)).take gs) / 127 ∧
        (quantize_q80 nv w gs).ints.getD i 0 =
          roundEven (w.getD i 0 / (quantize_q80 nv w gs).scales.getD (i / gs) 0) ∧
        -127 ≤ (quantize_q80 nv w gs).ints.getD i 0 ∧
        (quantize_q80 nv w gs).ints.getD i 0 ≤ 127) ∧
      ((quantize_q40 nv w gs).scales.getD (i / gs) 0 =
          absMax ((w.drop (i / gs * gs)).take gs) / 7 ∧
        (quantize_q40 nv w gs).ints.getD i 0 =
          clamp4 (roundEven (w.getD i 0 /
            (quantize_q40 nv w gs).scales.getD (i / gs) 0)) ∧
        -7 ≤ (quantize_q40 nv w gs).ints.getD i 0 ∧
        (quantize_q40 nv w gs).ints.getD i 0 ≤ 7) := by
  intro i hi
  have hgrp := div_lt_groups hgs hdvd hi
  have hmem : (w.drop (i / gs * gs)).take gs ∈ toGroups gs w :=
    toGroups_getD gs w _ hgrp ▸ toGroups_getD_mem _ hgrp
  have hnzg : absMax ((w.drop (i / gs * gs)).take gs) ≠ 0 := hnz _ hmem
  have hglen : ((w.drop (i / gs * gs)).take gs).length = gs :=
    toGroups_mem_length hgs hdvd hmem
  have hjlt : i % gs < ((w.drop (i / gs * gs)).take gs).length := by
    rw [hglen]
    exact Nat.mod_lt _ hgs
  have hwi : ((w.drop (i / gs * gs)).take gs).getD (i % gs) 0 = w.getD i 0 := by
    rw [← toGroups_getD_getD hgs hdvd hi, toGroups_getD _ _ _ hgrp]
  refine ⟨⟨?_, ?_, ?_⟩, ?_, ?_, ?_⟩
  · rw [quantize_q80_scales_getD nv hgrp, quantizeGroup80_scale]
    rfl
  · rw [quantize_q80_ints_getD nv hgs hdvd hi, quantize_q80_scales_getD nv hgrp,
      quantizeGroup80_scale, quantizeGroup80_ints_getD_of_nz nv _ hnzg hjlt, hwi]
  · rw [quantize_q80_ints_getD nv hgs hdvd hi]
    exact quantizeGroup80_ints_range nv _ hnzg hjlt
  · rw [quantize_q40_scales_getD nv hgrp, quantizeGroup40_scale]
    rfl
  · rw [quantize_q40_ints_getD nv hgs hdvd hi, quantize_q40_scales_getD nv hgrp,
      quantizeGroup40_scale, quantizeGroup40_ints_getD_of_nz nv _ hnzg hjlt, hwi]
  · rw [quantize_q40_ints_getD nv hgs hdvd hi, quantizeGroup40_ints_getD_of_nz nv _ hnzg hjlt]
    exact clamp4_range _


/-- Witness for the amended C3 theorem at `w = [1, 2]`, `gs = 2`,
`i = 0`: scale `2/127`, `1 / (2/127) = 63.5` rounds to `64` (ties to
even), and `1 / (2/7) = 3.5` rounds to `4`, clamped unchanged. -/
theorem quantize_rounds_half_even_and_clamps_witness :
    0 < 2 ∧ 2 ∣ ([1, 2] : List ℚ).length ∧
    (quantize_q80 0 [1, 2] 2).ints.getD 0 0 =
      roundEven (([1, 2] : List ℚ).getD 0 0 /
        (quantize_q80 0 [1, 2] 2).scales.getD 0 0) ∧
    (quantize_q40 0 [1, 2] 2).ints.getD 0 0 =
      clamp4 (roundEven (([1, 2] : List ℚ).getD 0 0 /
        (quantize_q40 0 [1, 2] 2).scales.getD 0 0)) := by
  refine ⟨by decide, by decide, ?_, ?_⟩
  · exact ((quantize_rounds_half_even_and_clamps 0 [1, 2] 2 (by decide) (by decide)
      (by with_unfolding_all decide) 0 (by decide)).1).2.1
  · exact ((quantize_rounds_half_even_and_clamps 0 [1, 2] 2 (by decide) (by decide)
      (by with_unfolding_all decide) 0 (by decide)).2).2.1

/-- C4: for both codecs, the reported `maxerr` is a bound on the
dequantization error of every element, and is attained at some element —
i.e. it equals the true maximum over all elements of
`|quant * scale - original|`. -/
theorem quantize_maxerr_is_true_max (nv : ℤ) (w : List ℚ) (gs : ℕ)
    (hgs : 0 < gs) (hdvd : gs ∣ w.length) (hne : w ≠ []) :
    (∀ i, i < w.length →
        |((quantize_q80 nv w gs).ints.getD i 0 : ℚ) *
            (quantize_q80 nv w gs).scales.getD (i / gs) 0 - w.getD i 0| ≤
          (quantize_q80 nv w gs).maxerr) ∧
    (∃ i, i < w.length ∧
        |((quantize_q80 nv w gs).ints.getD i 0 : ℚ) *
            (quantize_q80 nv w gs).scales.getD (i / gs) 0 - w.getD i 0| =
          (quantize_q80 nv w gs).maxerr) ∧
    (∀ i, i < w.length →
        |((quantize_q40 nv w gs).ints.getD i 0 : ℚ) *
            (quantize_q40 nv w gs).scales.getD (i / gs) 0 - w.getD i 0| ≤
          (quantize_q40 nv w gs).maxerr) ∧
    (∃ i, i < w.length ∧
        |((quantize_q40 nv w gs).ints.getD i 0 : ℚ) *
            (quantize_q40 nv w gs).scales.getD (i / gs) 0 - w.getD i 0| =
          (quantize_q40 nv w gs).maxerr) := by
  refine ⟨?_, ?_, ?_, ?_⟩
  · intro i hi
    have hgrp := div_lt_groups hgs hdvd hi
    have hmem : (w.drop (i / gs * gs)).take gs ∈ toGroups gs w :=
      toGroups_getD gs w _ hgrp ▸ toGroups_getD_mem _ hgrp
    have hjlt : i % gs < ((w.drop (i / gs * gs)).take gs).length := by
      rw [toGroups_mem_length hgs hdvd hmem]
      exact Nat.mod_lt _ hgs
    have hwi : ((w.drop (i / gs * gs)).take gs).getD (i % gs) 0 = w.getD i 0 := by
      rw [← toGroups_getD_getD hgs hdvd hi, toGroups_getD _ _ _ hgrp]
    rw [quantize_q80_ints_getD nv hgs hdvd hi, quantize_q80_scales_getD nv hgrp, ← hwi]
    exact le_trans (quantizeGroup80_err_bound nv _ hjlt) (quantize_q80_err_le nv hgrp)
  · obtain ⟨g, hg, hgerr⟩ := quantize_q80_maxerr_attained nv hgs hdvd hne
    have hmem : (w.drop (g * gs)).take gs ∈ toGroups gs w :=
      toGroups_getD gs w _ hg ▸ toGroups_getD_mem _ hg
    have hglen : ((w.drop (g * gs)).take gs).length = gs :=
      toGroups_mem_length hgs hdvd hmem
    have hgne : (w.drop (g * gs)).take gs ≠ [] := by
      intro h
      rw [h] at hglen
      simp at hglen
      omega
    obtain ⟨j, hj, hjerr⟩ := quantizeGroup80_err_attained nv _ hgne
    have hjgs : j < gs := hglen ▸ hj
    have hi' : j + g * gs < w.length := idx_lt hgs hdvd hg hjgs
    have hdiv : (j + g * gs) / gs = g := by
      rw [Nat.add_mul_div_right _ _ hgs, Nat.div_eq_of_lt hjgs]
      omega
    have hmod : (j + g * gs) % gs = j := by
      rw [Nat.add_mul_mod_self_right]
      exact Nat.mod_eq_of_lt hjgs
    have hw : ((w.drop (g * gs)).take gs).getD j 0 = w.getD (j + g * gs) 0 := by
      have h := toGroups_getD_getD hgs hdvd hi'
      rw [hdiv, hmod] at h
      rw [← h, toGroups_getD _ _ _ hg]
    refine ⟨j + g * gs, hi', ?_⟩
    rw [quantize_q80_ints_getD nv hgs hdvd hi']
    rw [hdiv, hmod, quantize_q80_scales_getD nv hg, ← hw]
    exact hjerr.trans hgerr
  · intro i hi
    have hgrp := div_lt_groups hgs hdvd hi
    have hmem : (w.drop (i / gs * gs)).take gs ∈ toGroups gs w :=
      toGroups_getD gs w _ hgrp ▸ toGroups_getD_mem _ hgrp
    have hjlt : i % gs < ((w.drop (i / gs * gs)).take gs).length := by
      rw [toGroups_mem_length hgs hdvd hmem]
      exact Nat.mod_lt _ hgs
    have hwi : ((w.drop (i / gs * gs)).take gs).getD (i % gs) 0 = w.getD i 0 := by
      rw [← toGroups_getD_getD hgs hdvd hi, toGroups_getD _ _ _ hgrp]
    rw [quantize_q40_ints_getD nv hgs hdvd hi, quantize_q40_scales_getD nv hgrp, ← hwi]
    exact le_trans (quantizeGroup40_err_bound nv _ hjlt) (quantize_q40_err_le nv hgrp)
  · obtain ⟨g, hg, hgerr⟩ := quantize_q40_maxerr_attained nv hgs hdvd hne
    have hmem : (w.drop (g * gs)).take gs ∈ toGroups gs w :=
      toGroups_getD gs w _ hg ▸ toGroups_getD_mem _ hg
    have hglen : ((w.drop (g * gs)).take gs).length = gs :=
      toGroups_mem_length hgs hdvd hmem
    have hgne : (w.drop (g * gs)).take gs ≠ [] := by
      intro h
      rw [h] at hglen
      simp at hglen
      omega
    obtain ⟨j, hj, hjerr⟩ := quantizeGroup40_err_attained nv _ hgne
    have hjgs : j < gs := hglen ▸ hj
    have hi' : j + g * gs < w.length := idx_lt hgs hdvd hg hjgs
    have hdiv : (j + g * gs) / gs = g := by
      rw [Nat.add_mul_div_right _ _ hgs, Nat.div_eq_of_lt hjgs]
      omega
    have hmod : (j + g * gs) % gs = j := by
      rw [Nat.add_mul_mod_self_right]
      exact Nat.mod_eq_of_lt hjgs
    have hw : ((w.drop (g * gs)).take gs).getD j 0 = w.getD (j + g * gs) 0 := by
      have h := toGroups_getD_getD hgs hdvd hi'
      rw [hdiv, hmod] at h
      rw [← h, toGroups_getD _ _ _ hg]
    refine ⟨j + g * gs, hi', ?_⟩
    rw [quantize_q40_ints_getD nv hgs hdvd hi']
    rw [hdiv, hmod, quantize_q40_scales_getD nv hg, ← hw]
    exact hjerr.trans hgerr

/-- Witness for the C4 theorem at `w = [1, 2]`, `gs = 2`. -/
theorem quantize_maxerr_is_true_max_witness :
    0 < 2 ∧ ([1, 2] : List ℚ) ≠ [] ∧
    |((quantize_q80 0 [1, 2] 2).ints.getD 0 0 : ℚ) *
        (quantize_q80 0 [1, 2] 2).scales.getD 0 0 - ([1, 2] : List ℚ).getD 0 0| ≤
      (quantize_q80 0 [1, 2] 2).maxerr ∧
    (∃ i, i < ([1, 2] : List ℚ).length ∧
      |((quantize_q40 0 [1, 2] 2).ints.getD i 0 : ℚ) *
          (quantize_q40 0 [1, 2] 2).scales.getD (i / 2) 0 - ([1, 2] : List ℚ).getD i 0| =
        (quantize_q40 0 [1, 2] 2).maxerr) := by
  refine ⟨by decide, by decide, ?_, ?_⟩
  · exact (quantize_maxerr_is_true_max 0 [1, 2] 2 (by decide) (by decide) (by decide)).1
      0 (by decide)
  · exact (quantize_maxerr_is_true_max 0 [1, 2] 2 (by decide) (by decide) (by decide)).2.2.2


theorem le32_length (x : ℤ) : (le32 x).length = 4 := rfl

theorem headerBytes_none_eq (v : ℤ) (p : ModelParams) (hd : ℤ) (sh : Bool) :
    headerBytes v p hd sh none =
      le32 0x616B3432 ++ le32 v ++ le32 p.dim ++ le32 hd ++ le32 p.n_layers ++
      le32 p.n_heads ++ le32 (p.n_kv_heads.getD p.n_heads) ++ le32 p.vocab_size ++
      le32 p.max_seq_len ++ [if sh then 1 else 0] ++ List.replicate 219 0 := by
  simp [headerBytes, le32_length]

theorem headerBytes_some_eq (v : ℤ) (p : ModelParams) (hd : ℤ) (sh : Bool) (g : ℤ) :
    headerBytes v p hd sh (some g) =
      le32 0x616B3432 ++ le32 v ++ le32 p.dim ++ le32 hd ++ le32 p.n_layers ++
      le32 p.n_heads ++ le32 (p.n_kv_heads.getD p.n_heads) ++ le32 p.vocab_size ++
      le32 p.max_seq_len ++ [if sh then 1 else 0] ++ le32 g ++ List.replicate 215 0 := by
  simp [headerBytes, le32_length]

theorem headerBytes_length (v : ℤ) (p : ModelParams) (hd : ℤ) (sh : Bool)
    (gso : Option ℤ) : (headerBytes v p hd sh gso).length = 256 := by
  cases gso <;> simp [headerBytes, le32_length]


theorem drop_le32 (x : ℤ) (l : List ℕ) (n : ℕ) :
    (le32 x ++ l).drop (4 + n) = l.drop n := by
  have h : (le32 x).length = 4 := rfl
  rw [← h, List.drop_append]

theorem take_le32 (x : ℤ) (l : List ℕ) : (le32 x ++ l).take 4 = le32 x := by
  have h : (le32 x).length = 4 := rfl
  rw [← h, List.take_left]

theorem headerBytes_kv_slice (v : ℤ) (p : ModelParams) (hd : ℤ) (sh : Bool)
    (gso : Option ℤ) :
    ((headerBytes v p hd sh gso).drop 24).take 4 =
      le32 (p.n_kv_heads.getD p.n_heads) := by
  have hassoc : headerBytes v p hd sh gso =
      le32 0x616B3432 ++ (le32 v ++ (le32 p.dim ++ (le32 hd ++ (le32 p.n_layers ++
        (le32 p.n_heads ++ (le32 (p.n_kv_heads.getD p.n_heads) ++ (le32 p.vocab_size ++
        (le32 p.max_seq_len ++ ([if sh then 1 else 0] ++ ((gso.map le32).getD [] ++
        List.replicate (256 - (37 + ((gso.map le32).getD []).length)) 0)))))))))) := by
    cases gso <;> simp [headerBytes, le32_length]
  rw [hassoc, (by norm_num : (24 : ℕ) = 4 + 20), drop_le32,
    (by norm_num : (20 : ℕ) = 4 + 16), drop_le32,
    (by norm_num : (16 : ℕ) = 4 + 12), drop_le32,
    (by norm_num : (12 : ℕ) = 4 + 8), drop_le32,
    (by norm_num : (8 : ℕ) = 4 + 4), drop_le32,
    (by norm_num : (4 : ℕ) = 4 + 0), drop_le32, List.drop_zero, take_le32]

theorem headerBytes_flag_slice (v : ℤ) (p : ModelParams) (hd : ℤ) (sh : Bool)
    (gso : Option ℤ) :
    ((headerBytes v p hd sh gso).drop 36).take 1 = [if sh then 1 else 0] := by
  have hassoc : headerBytes v p hd sh gso =
      le32 0x616B3432 ++ (le32 v ++ (le32 p.dim ++ (le32 hd ++ (le32 p.n_layers ++
        (le32 p.n_heads ++ (le32 (p.n_kv_heads.getD p.n_heads) ++ (le32 p.vocab_size ++
        (le32 p.max_seq_len ++ ([if sh then 1 else 0] ++ ((gso.map le32).getD [] ++
        List.replicate (256 - (37 + ((gso.map le32).getD []).length)) 0)))))))))) := by
    cases gso <;> simp [headerBytes, le32_length]
  rw [hassoc, (by norm_num : (36 : ℕ) = 4 + 32), drop_le32,
    (by norm_num : (32 : ℕ) = 4 + 28), drop_le32,
    (by norm_num : (28 : ℕ) = 4 + 24), drop_le32,
    (by norm_num : (24 : ℕ) = 4 + 20), drop_le32,
    (by norm_num : (20 : ℕ) = 4 + 16), drop_le32,
    (by norm_num : (16 : ℕ) = 4 + 12), drop_le32,
    (by norm_num : (12 : ℕ) = 4 + 8), drop_le32,
    (by norm_num : (8 : ℕ) = 4 + 4), drop_le32,
    (by norm_num : (4 : ℕ) = 4 + 0), drop_le32, List.drop_zero]
  rfl

theorem headerBytes_gs_slice (v : ℤ) (p : ModelParams) (hd : ℤ) (sh : Bool) (g : ℤ) :
    ((headerBytes v p hd sh (some g)).drop 37).take 4 = le32 g := by
  have hassoc : headerBytes v p hd sh (some g) =
      le32 0x616B3432 ++ (le32 v ++ (le32 p.dim ++ (le32 hd ++ (le32 p.n_layers ++
        (le32 p.n_heads ++ (le32 (p.n_kv_heads.getD p.n_heads) ++ (le32 p.vocab_size ++
        (le32 p.max_seq_len ++ ([if sh then 1 else 0] ++ (le32 g ++
        List.replicate 215 0)))))))))) := by
    simp [headerBytes, le32_length]
  rw [hassoc, (by norm_num : (37 : ℕ) = 4 + 33), drop_le32,
    (by norm_num : (33 : ℕ) = 4 + 29), drop_le32,
    (by norm_num : (29 : ℕ) = 4 + 25), drop_le32,
    (by norm_num : (25 : ℕ) = 4 + 21), drop_le32,
    (by norm_num : (21 : ℕ) = 4 + 17), drop_le32,
    (by norm_num : (17 : ℕ) = 4 + 13), drop_le32,
    (by norm_num : (13 : ℕ) = 4 + 9), drop_le32,
    (by norm_num : (9 : ℕ) = 4 + 5), drop_le32,
    (by norm_num : (5 : ℕ) = 4 + 1), drop_le32]
  have hstep : ([if sh then (1 : ℕ) else 0] ++ (le32 g ++ List.replicate 215 0)).drop 1 =
      le32 g ++ List.replicate 215 0 := rfl
  rw [hstep, take_le32]

theorem headerBytes_magic (v : ℤ) (p : ModelParams) (hd : ℤ) (sh : Bool)
    (gso : Option ℤ) :
    (headerBytes v p hd sh gso).take 4 = le32 0x616B3432 := by
  have hassoc : headerBytes v p hd sh gso =
      le32 0x616B3432 ++ (le32 v ++ (le32 p.dim ++ (le32 hd ++ (le32 p.n_layers ++
        (le32 p.n_heads ++ (le32 (p.n_kv_heads.getD p.n_heads) ++ (le32 p.vocab_size ++
        (le32 p.max_seq_len ++ ([if sh then 1 else 0] ++ ((gso.map le32).getD [] ++
        List.replicate (256 - (37 + ((gso.map le32).getD []).length)) 0)))))))))) := by
    cases gso <;> simp [headerBytes, le32_length]
  rw [hassoc, take_le32]


theorem version1_export_cons {m : Model} {l0 : Layer} {ls : List Layer}
    (hl : m.layers = l0 :: ls) :
    version1_export m = .ok (Chunk.header
      (headerBytes 1 m.params (l0.w1.shape0 : ℤ)
        (decide (m.tok_embeddings = m.output)) none) ::
      (m.layers.map (·.attention_norm) ++ m.layers.map (·.ffn_norm) ++ [m.norm] ++
       [m.tok_embeddings] ++ m.layers.map (·.wq) ++ m.layers.map (·.wk) ++
       m.layers.map (·.wv) ++ m.layers.map (·.wo) ++ m.layers.map (·.w1) ++
       m.layers.map (·.w2) ++ m.layers.map (·.w3) ++
       (if m.tok_embeddings = m.output then [] else [m.output])).map
        (fun w => Chunk.fp32 w.data)) := by
  unfold version1_export
  rw [hl]

theorem version1_export_ok_layers {m : Model} {cs : List Chunk}
    (h : version1_export m = .ok cs) : ∃ l0 ls, m.layers = l0 :: ls := by
  cases hl : m.layers with
  | nil =>
    unfold version1_export at h
    rw [hl] at h
    cases h
  | cons l0 ls => exact ⟨l0, ls, rfl⟩

theorem version2_export_cons {nv : ℤ} {m : Model} {gsz : ℕ} {l0 : Layer}
    {ls : List Layer} (hl : m.layers = l0 :: ls)
    (hall : (quant_weights m).all
      (fun w => w.data.length % (backoff m.params.dim gsz) == 0) = true) :
    version2_export nv m gsz = .ok (Chunk.header
      (headerBytes 2 m.params (l0.w1.shape0 : ℤ)
        (decide (m.tok_embeddings = m.output)) (some (backoff m.params.dim gsz : ℤ))) ::
      ((m.layers.map (fun l => Chunk.fp32 l.attention_norm.data) ++
        m.layers.map (fun l => Chunk.fp32 l.ffn_norm.data) ++
        [Chunk.fp32 m.norm.data]) ++
       ((quant_weights m).map (fun w =>
         [Chunk.int8 (quantize_q80 nv w.data (backoff m.params.dim gsz)).ints,
          Chunk.fp32 (quantize_q80 nv w.data (backoff m.params.dim gsz)).scales])).flatten)) := by
  simp only [version2_export]
  rw [if_pos hall, hl]

theorem version2_export_ok_shape {nv : ℤ} {m : Model} {gsz : ℕ} {cs : List Chunk}
    (h : version2_export nv m gsz = .ok cs) :
    (∃ l0 ls, m.layers = l0 :: ls) ∧
    (quant_weights m).all
      (fun w => w.data.length % (backoff m.params.dim gsz) == 0) = true := by
  by_cases hall : (quant_weights m).all
      (fun w => w.data.length % (backoff m.params.dim gsz) == 0) = true
  · refine ⟨?_, hall⟩
    cases hl : m.layers with
    | nil =>
      simp only [version2_export] at h
      rw [if_pos hall, hl] at h
      cases h
    | cons l0 ls => exact ⟨l0, ls, rfl⟩
  · simp only [version2_export] at h
    rw [Bool.not_eq_true] at hall
    rw [hall] at h
    simp at h


theorem version3_export_cons {nv : ℤ} {m : Model} {gsz : ℕ} {l0 : Layer}
    {ls : List Layer} (hl : m.layers = l0 :: ls)
    (hall : (quant_weights m).all
      (fun w => w.data.length % (backoff m.params.dim gsz) == 0) = true) :
    version3_export nv m gsz = .ok (Chunk.header
      (headerBytes 3 m.params (l0.w1.shape0 : ℤ)
        (decide (m.tok_embeddings = m.output)) (some (backoff m.params.dim gsz : ℤ))) ::
      ((m.layers.map (fun l => Chunk.fp32 l.attention_norm.data) ++
        m.layers.map (fun l => Chunk.fp32 l.ffn_norm.data) ++
        [Chunk.fp32 m.norm.data]) ++
       ((quant_weights m).map (fun w =>
         [Chunk.int4 (serialize_int4 (quantize_q40 nv w.data (backoff m.params.dim gsz)).ints),
          Chunk.fp32 (quantize_q40 nv w.data (backoff m.params.dim gsz)).scales])).flatten)) := by
  simp only [version3_export]
  rw [if_pos hall, hl]

theorem version3_export_ok_shape {nv : ℤ} {m : Model} {gsz : ℕ} {cs : List Chunk}
    (h : version3_export nv m gsz = .ok cs) :
    (∃ l0 ls, m.layers = l0 :: ls) ∧
    (quant_weights m).all
      (fun w => w.data.length % (backoff m.params.dim gsz) == 0) = true := by
  by_cases hall : (quant_weights m).all
      (fun w => w.data.length % (backoff m.params.dim gsz) == 0) = true
  · refine ⟨?_, hall⟩
    cases hl : m.layers with
    | nil =>
      simp only [version3_export] at h
      rw [if_pos hall, hl] at h
      cases h
    | cons l0 ls => exact ⟨l0, ls, rfl⟩
  · simp only [version3_export] at h
    rw [Bool.not_eq_true] at hall
    rw [hall] at h
    simp at h

theorem model_export_one (nv : ℤ) (m : Model) :
    model_export nv m 1 = version1_export m := rfl

theorem model_export_two (nv : ℤ) (m : Model) :
    model_export nv m 2 = version2_export nv m 64 := rfl

theorem model_export_three (nv : ℤ) (m : Model) :
    model_export nv m 3 = version3_export nv m 64 := rfl

theorem model_export_unknown (nv : ℤ) (m : Model) {v : ℤ}
    (h1 : v ≠ 1) (h2 : v ≠ 2) (h3 : v ≠ 3) :
    model_export nv m v = .error "ValueError: unknown version" := by
  simp only [model_export]
  rw [if_neg h1, if_neg h2, if_neg h3]


/-- C5: every successful export (version 1, 2 or 3) writes a
256-byte header: magic `0x616B3432` at bytes 0-3, the version at bytes
4-7, the seven params ints at bytes 8-35, the flag byte (0 or 1) at
byte 36, the group-size int at bytes 37-40 for v2/v3, and zero padding
to 256; the tensor payload (`rest`) starts at byte offset 256. -/
theorem export_header_layout (nv : ℤ) (m : Model) (v : ℤ)
    (hok : ∃ cs, model_export nv m v = .ok cs) :
    ∃ H rest hd sh gtail,
      model_export nv m v = .ok (Chunk.header H :: rest) ∧
      H.length = 256 ∧
      (sh = 0 ∨ sh = 1) ∧
      ((v = 1 ∧ gtail = List.replicate 219 0) ∨
        ((v = 2 ∨ v = 3) ∧ ∃ gsz : ℤ, gtail = le32 gsz ++ List.replicate 215 0)) ∧
      H = le32 0x616B3432 ++ le32 v ++ le32 m.params.dim ++ le32 hd ++
          le32 m.params.n_layers ++ le32 m.params.n_heads ++
          le32 (m.params.n_kv_heads.getD m.params.n_heads) ++
          le32 m.params.vocab_size ++ le32 m.params.max_seq_len ++ [sh] ++ gtail := by
  obtain ⟨cs, hcs⟩ := hok
  by_cases hv1 : v = 1
  · subst hv1
    rw [model_export_one] at hcs ⊢
    obtain ⟨l0, ls, hl⟩ := version1_export_ok_layers hcs
    refine ⟨headerBytes 1 m.params (l0.w1.shape0 : ℤ)
        (decide (m.tok_embeddings = m.output)) none, _,
      (l0.w1.shape0 : ℤ),
      if decide (m.tok_embeddings = m.output) then 1 else 0,
      List.replicate 219 0,
      version1_export_cons hl, headerBytes_length _ _ _ _ _, ?_, ?_, ?_⟩
    · by_cases hsh : decide (m.tok_embeddings = m.output) <;> simp [hsh]
    · exact Or.inl ⟨rfl, rfl⟩
    · exact headerBytes_none_eq _ _ _ _
  · by_cases hv2 : v = 2
    · subst hv2
      rw [model_export_two] at hcs ⊢
      obtain ⟨⟨l0, ls, hl⟩, hall⟩ := version2_export_ok_shape hcs
      refine ⟨headerBytes 2 m.params (l0.w1.shape0 : ℤ)
          (decide (m.tok_embeddings = m.output)) (some (backoff m.params.dim 64 : ℤ)), _,
        (l0.w1.shape0 : ℤ),
        if decide (m.tok_embeddings = m.output) then 1 else 0,
        le32 (backoff m.params.dim 64 : ℤ) ++ List.replicate 215 0,
        version2_export_cons hl hall, headerBytes_length _ _ _ _ _, ?_, ?_, ?_⟩
      · by_cases hsh : decide (m.tok_embeddings = m.output) <;> simp [hsh]
      · exact Or.inr ⟨Or.inl rfl, ⟨_, rfl⟩⟩
      · rw [headerBytes_some_eq]
        simp [List.append_assoc]
    · by_cases hv3 : v = 3
      · subst hv3
        rw [model_export_three] at hcs ⊢
        obtain ⟨⟨l0, ls, hl⟩, hall⟩ := version3_export_ok_shape hcs
        refine ⟨headerBytes 3 m.params (l0.w1.shape0 : ℤ)
            (decide (m.tok_embeddings = m.output)) (some (backoff m.params.dim 64 : ℤ)), _,
          (l0.w1.shape0 : ℤ),
          if decide (m.tok_embeddings = m.output) then 1 else 0,
          le32 (backoff m.params.dim 64 : ℤ) ++ List.replicate 215 0,
          version3_export_cons hl hall, headerBytes_length _ _ _ _ _, ?_, ?_, ?_⟩
        · by_cases hsh : decide (m.tok_embeddings = m.output) <;> simp [hsh]
        · exact Or.inr ⟨Or.inr rfl, ⟨_, rfl⟩⟩
        · rw [headerBytes_some_eq]
          simp [List.append_assoc]
      · rw [model_export_unknown nv m hv1 hv2 hv3] at hcs
        cases hcs


/-- Witness for C5 at the concrete model `mTest`, version 2. -/
theorem export_header_layout_witness :
    (∃ cs, model_export 0 mTest 2 = .ok cs) ∧
    (∃ H rest hd sh gtail,
      model_export 0 mTest 2 = .ok (Chunk.header H :: rest) ∧
      H.length = 256 ∧
      (sh = 0 ∨ sh = 1) ∧
      (((2 : ℤ) = 1 ∧ gtail = List.replicate 219 0) ∨
        (((2 : ℤ) = 2 ∨ (2 : ℤ) = 3) ∧ ∃ gsz : ℤ, gtail = le32 gsz ++ List.replicate 215 0)) ∧
      H = le32 0x616B3432 ++ le32 2 ++ le32 mTest.params.dim ++ le32 hd ++
          le32 mTest.params.n_layers ++ le32 mTest.params.n_heads ++
          le32 (mTest.params.n_kv_heads.getD mTest.params.n_heads) ++
          le32 mTest.params.vocab_size ++ le32 mTest.params.max_seq_len ++ [sh] ++ gtail) := by
  constructor
  · exact ⟨_, by with_unfolding_all rfl⟩
  · exact export_header_layout 0 mTest 2 ⟨_, by with_unfolding_all rfl⟩


/-- C6: tensors are written in the fixed order — all per-layer
attention norms, all per-layer feed-forward norms, the final norm, then
the heavy tensors (embedding, wq, wk, wv, wo, w1, w2, w3, each across
all layers, with the output projection appended last only if not
shared); for v2/v3 each heavy tensor's quantized integers are
immediately followed by that tensor's scales. -/
theorem export_tensor_order (nv : ℤ) (m : Model) (gsz : ℕ) (l0 : Layer)
    (ls : List Layer) (hl : m.layers = l0 :: ls)
    (hall : (quant_weights m).all
      (fun w => w.data.length % (backoff m.params.dim gsz) == 0) = true) :
    (∃ H, version1_export m = .ok (Chunk.header H ::
      (m.layers.map (·.attention_norm) ++ m.layers.map (·.ffn_norm) ++ [m.norm] ++
       [m.tok_embeddings] ++ m.layers.map (·.wq) ++ m.layers.map (·.wk) ++
       m.layers.map (·.wv) ++ m.layers.map (·.wo) ++ m.layers.map (·.w1) ++
       m.layers.map (·.w2) ++ m.layers.map (·.w3) ++
       (if m.tok_embeddings = m.output then [] else [m.output])).map
        (fun w => Chunk.fp32 w.data))) ∧
    (∃ H, version2_export nv m gsz = .ok (Chunk.header H ::
      ((m.layers.map (fun l => Chunk.fp32 l.attention_norm.data) ++
        m.layers.map (fun l => Chunk.fp32 l.ffn_norm.data) ++
        [Chunk.fp32 m.norm.data]) ++
       (([m.tok_embeddings] ++ m.layers.map (·.wq) ++ m.layers.map (·.wk) ++
         m.layers.map (·.wv) ++ m.layers.map (·.wo) ++ m.layers.map (·.w1) ++
         m.layers.map (·.w2) ++ m.layers.map (·.w3) ++
         (if m.tok_embeddings = m.output then [] else [m.output])).map (fun w =>
          [Chunk.int8 (quantize_q80 nv w.data (backoff m.params.dim gsz)).ints,
           Chunk.fp32 (quantize_q80 nv w.data (backoff m.params.dim gsz)).scales])).flatten))) ∧
    (∃ H, version3_export nv m gsz = .ok (Chunk.header H ::
      ((m.layers.map (fun l => Chunk.fp32 l.attention_norm.data) ++
        m.layers.map (fun l => Chunk.fp32 l.ffn_norm.data) ++
        [Chunk.fp32 m.norm.data]) ++
       (([m.tok_embeddings] ++ m.layers.map (·.wq) ++ m.layers.map (·.wk) ++
         m.layers.map (·.wv) ++ m.layers.map (·.wo) ++ m.layers.map (·.w1) ++
         m.layers.map (·.w2) ++ m.layers.map (·.w3) ++
         (if m.tok_embeddings = m.output then [] else [m.output])).map (fun w =>
          [Chunk.int4 (serialize_int4 (quantize_q40 nv w.data (backoff m.params.dim gsz)).ints),
           Chunk.fp32 (quantize_q40 nv w.data (backoff m.params.dim gsz)).scales])).flatten))) := by
  refine ⟨⟨_, version1_export_cons hl⟩, ?_, ?_⟩
  · exact ⟨_, by rw [version2_export_cons hl hall]; rfl⟩
  · exact ⟨_, by rw [version3_export_cons hl hall]; rfl⟩


/-- Witness for C6 at the concrete model `mTest` (one layer, shared
classifier), requested group size 64 (backing off to 2). -/
theorem export_tensor_order_witness :
    mTest.layers = testLayer :: [] ∧
    (∃ H, version1_export mTest = .ok (Chunk.header H ::
      (mTest.layers.map (·.attention_norm) ++ mTest.layers.map (·.ffn_norm) ++ [mTest.norm] ++
       [mTest.tok_embeddings] ++ mTest.layers.map (·.wq) ++ mTest.layers.map (·.wk) ++
       mTest.layers.map (·.wv) ++ mTest.layers.map (·.wo) ++ mTest.layers.map (·.w1) ++
       mTest.layers.map (·.w2) ++ mTest.layers.map (·.w3) ++
       (if mTest.tok_embeddings = mTest.output then [] else [mTest.output])).map
        (fun w => Chunk.fp32 w.data))) ∧
    (∃ H, version2_export 0 mTest 64 = .ok (Chunk.header H ::
      ((mTest.layers.map (fun l => Chunk.fp32 l.attention_norm.data) ++
        mTest.layers.map (fun l => Chunk.fp32 l.ffn_norm.data) ++
        [Chunk.fp32 mTest.norm.data]) ++
       (([mTest.tok_embeddings] ++ mTest.layers.map (·.wq) ++ mTest.layers.map (·.wk) ++
         mTest.layers.map (·.wv) ++ mTest.layers.map (·.wo) ++ mTest.layers.map (·.w1) ++
         mTest.layers.map (·.w2) ++ mTest.layers.map (·.w3) ++
         (if mTest.tok_embeddings = mTest.output then [] else [mTest.output])).map (fun w =>
          [Chunk.int8 (quantize_q80 0 w.data (backoff mTest.params.dim 64)).ints,
           Chunk.fp32 (quantize_q80 0 w.data (backoff mTest.params.dim 64)).scales])).flatten))) := by
  have hl : mTest.layers = testLayer :: [] := rfl
  have hall : (quant_weights mTest).all
      (fun w => w.data.length % (backoff mTest.params.dim 64) == 0) = true := by
    with_unfolding_all decide
  exact ⟨hl, (export_tensor_order 0 mTest 64 testLayer [] hl hall).1,
    (export_tensor_order 0 mTest 64 testLayer [] hl hall).2.1⟩


theorem flatten_pairs_length {α : Type} (f g : α → Chunk) (l : List α) :
    ((l.map fun w => [f w, g w]).flatten).length = 2 * l.length := by
  induction l with
  | nil => rfl
  | cons a t ih =>
    simp only [List.map_cons, List.flatten_cons, List.length_append, ih,
      List.length_cons, List.length_nil]
    omega

theorem getLast?_append_pair {X : List Chunk} {a b : Chunk} :
    (X ++ [a, b]).getLast? = some b := by
  have h : X ++ [a, b] = (X ++ [a]) ++ [b] := by simp
  rw [h, List.getLast?_concat]

/-- C7: the shared-classifier flag byte is 1 iff the token-embedding
and output-projection tensors are identical; when they are identical the
projection tensor is omitted (payload chunk counts shrink accordingly),
and when they differ the projection is the last tensor written (for
v2/v3, its scales chunk is the very last chunk). -/
theorem export_shared_classifier (nv : ℤ) (m : Model) (gsz : ℕ) (l0 : Layer)
    (ls : List Layer) (hl : m.layers = l0 :: ls)
    (hall : (quant_weights m).all
      (fun w => w.data.length % (backoff m.params.dim gsz) == 0) = true) :
    (∃ H rest, version1_export m = .ok (Chunk.header H :: rest) ∧
      ((H.drop 36).take 1 = [1] ↔ m.tok_embeddings = m.output) ∧
      (m.tok_embeddings = m.output → rest.length = 9 * m.layers.length + 2) ∧
      (m.tok_embeddings ≠ m.output → rest.length = 9 * m.layers.length + 3 ∧
        rest.getLast? = some (Chunk.fp32 m.output.data))) ∧
    (∃ H rest, version2_export nv m gsz = .ok (Chunk.header H :: rest) ∧
      ((H.drop 36).take 1 = [1] ↔ m.tok_embeddings = m.output) ∧
      (m.tok_embeddings = m.output → rest.length = 16 * m.layers.length + 3) ∧
      (m.tok_embeddings ≠ m.output → rest.length = 16 * m.layers.length + 5 ∧
        rest.getLast? = some (Chunk.fp32
          (quantize_q80 nv m.output.data (backoff m.params.dim gsz)).scales))) ∧
    (∃ H rest, version3_export nv m gsz = .ok (Chunk.header H :: rest) ∧
      ((H.drop 36).take 1 = [1] ↔ m.tok_embeddings = m.output) ∧
      (m.tok_embeddings = m.output → rest.length = 16 * m.layers.length + 3) ∧
      (m.tok_embeddings ≠ m.output → rest.length = 16 * m.layers.length + 5 ∧
        rest.getLast? = some (Chunk.fp32
          (quantize_q40 nv m.output.data (backoff m.params.dim gsz)).scales))) := by
  refine ⟨⟨_, _, version1_export_cons hl, ?_, ?_, ?_⟩,
    ⟨_, _, version2_export_cons hl hall, ?_, ?_, ?_⟩,
    ⟨_, _, version3_export_cons hl hall, ?_, ?_, ?_⟩⟩
  · rw [headerBytes_flag_slice]
    by_cases heq : m.tok_embeddings = m.output <;> simp [heq]
  · intro heq
    simp only [if_pos heq, List.length_map, List.length_append, List.length_cons,
      List.length_nil]
    omega
  · intro hne
    constructor
    · simp only [if_neg hne, List.length_map, List.length_append, List.length_cons,
        List.length_nil]
      omega
    · rw [if_neg hne, List.map_append, List.map_cons, List.map_nil,
        List.getLast?_concat]
  · rw [headerBytes_flag_slice]
    by_cases heq : m.tok_embeddings = m.output <;> simp [heq]
  · intro heq
    rw [List.length_append, flatten_pairs_length]
    simp only [quant_weights, if_pos heq, List.length_append, List.length_map,
      List.length_cons, List.length_nil]
    omega
  · intro hne
    constructor
    · rw [List.length_append, flatten_pairs_length]
      simp only [quant_weights, if_neg hne, List.length_append, List.length_map,
        List.length_cons, List.length_nil]
      omega
    · rw [show quant_weights m =
          ([m.tok_embeddings] ++ m.layers.map (·.wq) ++ m.layers.map (·.wk) ++
           m.layers.map (·.wv) ++ m.layers.map (·.wo) ++ m.layers.map (·.w1) ++
           m.layers.map (·.w2) ++ m.layers.map (·.w3)) ++ [m.output] from by
        simp [quant_weights, if_neg hne]]
      rw [List.map_append, List.map_cons, List.map_nil, List.flatten_append]
      rw [show ([[Chunk.int8 (quantize_q80 nv m.output.data (backoff m.params.dim gsz)).ints,
          Chunk.fp32 (quantize_q80 nv m.output.data (backoff m.params.dim gsz)).scales]] :
          List (List Chunk)).flatten =
          [Chunk.int8 (quantize_q80 nv m.output.data (backoff m.params.dim gsz)).ints,
           Chunk.fp32 (quantize_q80 nv m.output.data (backoff m.params.dim gsz)).scales] from rfl]
      rw [← List.append_assoc]
      exact getLast?_append_pair
  · rw [headerBytes_flag_slice]
    by_cases heq : m.tok_embeddings = m.output <;> simp [heq]
  · intro heq
    rw [List.length_append, flatten_pairs_length]
    simp only [quant_weights, if_pos heq, List.length_append, List.length_map,
      List.length_cons, List.length_nil]
    omega
  · intro hne
    constructor
    · rw [List.length_append, flatten_pairs_length]
      simp only [quant_weights, if_neg hne, List.length_append, List.length_map,
        List.length_cons, List.length_nil]
      omega
    · rw [show quant_weights m =
          ([m.tok_embeddings] ++ m.layers.map (·.wq) ++ m.layers.map (·.wk) ++
           m.layers.map (·.wv) ++ m.layers.map (·.wo) ++ m.layers.map (·.w1) ++
           m.layers.map (·.w2) ++ m.layers.map (·.w3)) ++ [m.output] from by
        simp [quant_weights, if_neg hne]]
      rw [List.map_append, List.map_cons, List.map_nil, List.flatten_append]
      rw [show ([[Chunk.int4 (serialize_int4
            (quantize_q40 nv m.output.data (backoff m.params.dim gsz)).ints),
          Chunk.fp32 (quantize_q40 nv m.output.data (backoff m.params.dim gsz)).scales]] :
          List (List Chunk)).flatten =
          [Chunk.int4 (serialize_int4
            (quantize_q40 nv m.output.data (backoff m.params.dim gsz)).ints),
           Chunk.fp32 (quantize_q40 nv m.output.data (backoff m.params.dim gsz)).scales] from rfl]
      rw [← List.append_assoc]
      exact getLast?_append_pair


/-- Witness for C7 at `mTest2`, whose output projection differs from
the embedding in one element. -/
theorem export_shared_classifier_witness :
    mTest2.layers = testLayer :: [] ∧
    (∃ H rest, version1_export mTest2 = .ok (Chunk.header H :: rest) ∧
      ((H.drop 36).take 1 = [1] ↔ mTest2.tok_embeddings = mTest2.output) ∧
      (mTest2.tok_embeddings = mTest2.output → rest.length = 9 * mTest2.layers.length + 2) ∧
      (mTest2.tok_embeddings ≠ mTest2.output → rest.length = 9 * mTest2.layers.length + 3 ∧
        rest.getLast? = some (Chunk.fp32 mTest2.output.data))) ∧
    (∃ H rest, version2_export 0 mTest2 64 = .ok (Chunk.header H :: rest) ∧
      ((H.drop 36).take 1 = [1] ↔ mTest2.tok_embeddings = mTest2.output) ∧
      (mTest2.tok_embeddings = mTest2.output → rest.length = 16 * mTest2.layers.length + 3) ∧
      (mTest2.tok_embeddings ≠ mTest2.output → rest.length = 16 * mTest2.layers.length + 5 ∧
        rest.getLast? = some (Chunk.fp32
          (quantize_q80 0 mTest2.output.data (backoff mTest2.params.dim 64)).scales))) := by
  have hl : mTest2.layers = testLayer :: [] := rfl
  have hall : (quant_weights mTest2).all
      (fun w => w.data.length % (backoff mTest2.params.dim 64) == 0) = true := by
    with_unfolding_all decide
  exact ⟨hl, (export_shared_classifier 0 mTest2 64 testLayer [] hl hall).1,
    (export_shared_classifier 0 mTest2 64 testLayer [] hl hall).2.1⟩


/-- C9: a version other than 1, 2, 3 is rejected with `ValueError`
(in the source, before any file is opened); and a heavy tensor whose
element count the backed-off group size does not divide makes v2/v3 fail
their assertion (in the source, before the output file is opened).  In
both cases the model yields an error and no chunks — no partial file. -/
theorem export_rejects_invalid (nv : ℤ) (m : Model) (v : ℤ) (gsz : ℕ) :
    (v ≠ 1 → v ≠ 2 → v ≠ 3 →
      model_export nv m v = .error "ValueError: unknown version") ∧
    ((quant_weights m).all
        (fun w => w.data.length % (backoff m.params.dim gsz) == 0) = false →
      version2_export nv m gsz =
        .error "AssertionError: weight numel not a multiple of group_size" ∧
      version3_export nv m gsz =
        .error "AssertionError: weight numel not a multiple of group_size") := by
  refine ⟨model_export_unknown nv m, fun hall => ⟨?_, ?_⟩⟩
  · simp only [version2_export]
    rw [hall]
    simp
  · simp only [version3_export]
    rw [hall]
    simp

/-- Witness for C9: version 7 is rejected, and `mOdd` (whose `wq` has
5 elements) fails the divisibility assertion at group size 2. -/
theorem export_rejects_invalid_witness :
    model_export 0 mTest 7 = .error "ValueError: unknown version" ∧
    version2_export 0 mOdd 2 =
      .error "AssertionError: weight numel not a multiple of group_size" := by
  constructor
  · exact (export_rejects_invalid 0 mTest 7 2).1 (by decide) (by decide) (by decide)
  · exact ((export_rejects_invalid 0 mOdd 7 2).2 (by with_unfolding_all decide)).1

/-- C10: the header's fifth params field (bytes 24-27) always holds
`n_kv_heads` when set and `n_heads` otherwise — in particular a model
with `n_kv_heads = None` gets `n_heads` written there, for every
version. -/
theorem export_kv_heads_field (nv : ℤ) (m : Model) (v : ℤ)
    (hok : ∃ cs, model_export nv m v = .ok cs) :
    ∃ H rest, model_export nv m v = .ok (Chunk.header H :: rest) ∧
      (H.drop 24).take 4 = le32 (m.params.n_kv_heads.getD m.params.n_heads) ∧
      (m.params.n_kv_heads = none → (H.drop 24).take 4 = le32 m.params.n_heads) ∧
      (∀ k, m.params.n_kv_heads = some k → (H.drop 24).take 4 = le32 k) := by
  obtain ⟨cs, hcs⟩ := hok
  have hfield : ∀ (H : List ℕ) (rest : List Chunk),
      (H.drop 24).take 4 = le32 (m.params.n_kv_heads.getD m.params.n_heads) →
      model_export nv m v = .ok (Chunk.header H :: rest) →
      ∃ H' rest', model_export nv m v = .ok (Chunk.header H' :: rest') ∧
        (H'.drop 24).take 4 = le32 (m.params.n_kv_heads.getD m.params.n_heads) ∧
        (m.params.n_kv_heads = none → (H'.drop 24).take 4 = le32 m.params.n_heads) ∧
        (∀ k, m.params.n_kv_heads = some k → (H'.drop 24).take 4 = le32 k) := by
    intro H rest hslice hexp
    refine ⟨H, rest, hexp, hslice, ?_, ?_⟩
    · intro hnone
      rw [hslice, hnone]
      rfl
    · intro k hsome
      rw [hslice, hsome]
      rfl
  by_cases hv1 : v = 1
  · subst hv1
    rw [model_export_one] at hcs ⊢
    obtain ⟨l0, ls, hl⟩ := version1_export_ok_layers hcs
    exact hfield _ _ (headerBytes_kv_slice _ _ _ _ _) (version1_export_cons hl)
  · by_cases hv2 : v = 2
    · subst hv2
      rw [model_export_two] at hcs ⊢
      obtain ⟨⟨l0, ls, hl⟩, hall⟩ := version2_export_ok_shape hcs
      exact hfield _ _ (headerBytes_kv_slice _ _ _ _ _) (version2_export_cons hl hall)
    · by_cases hv3 : v = 3
      · subst hv3
        rw [model_export_three] at hcs ⊢
        obtain ⟨⟨l0, ls, hl⟩, hall⟩ := version3_export_ok_shape hcs
        exact hfield _ _ (headerBytes_kv_slice _ _ _ _ _) (version3_export_cons hl hall)
      · rw [model_export_unknown nv m hv1 hv2 hv3] at hcs
        cases hcs

/-- Witness for C10 at `mTest`, whose `n_kv_heads` is unset; version 1. -/
theorem export_kv_heads_field_witness :
    mTest.params.n_kv_heads = none ∧
    (∃ H rest, model_export 0 mTest 1 = .ok (Chunk.header H :: rest) ∧
      (H.drop 24).take 4 = le32 (mTest.params.n_kv_heads.getD mTest.params.n_heads) ∧
      (mTest.params.n_kv_heads = none → (H.drop 24).take 4 = le32 mTest.params.n_heads) ∧
      (∀ k, mTest.params.n_kv_heads = some k → (H.drop 24).take 4 = le32 k)) := by
  constructor
  · rfl
  · exact export_kv_heads_field 0 mTest 1 ⟨_, by with_unfolding_all rfl⟩


theorem backoffFuel_irrel (dim : ℤ) :
    ∀ fuel fuel' gs : ℕ, gs ≤ fuel → gs ≤ fuel' →
      backoffFuel dim fuel gs = backoffFuel dim fuel' gs := by
  intro fuel
  induction fuel with
  | zero =>
    intro fuel' gs h h'
    have : gs = 0 := Nat.le_zero.mp h
    subst this
    cases fuel' with
    | zero => rfl
    | succ f => simp [backoffFuel]
  | succ f ih =>
    intro fuel' gs h h'
    cases gs with
    | zero =>
      cases fuel' with
      | zero => rfl
      | succ f' => simp [backoffFuel]
    | succ g =>
      cases fuel' with
      | zero => omega
      | succ f' =>
        simp only [backoffFuel]
        by_cases hz : dim % ((g + 1 : ℕ) : ℤ) = 0
        · rw [if_neg (by omega : ¬ (g + 1 = 0)), if_neg (by omega : ¬ (g + 1 = 0)),
            if_pos hz, if_pos hz]
        · rw [if_neg (by omega : ¬ (g + 1 = 0)), if_neg (by omega : ¬ (g + 1 = 0)),
            if_neg hz, if_neg hz]
          exact ih f' ((g + 1) / 2) (by omega) (by omega)

theorem backoff_stop {dim : ℤ} {gs : ℕ} (hgs : gs ≠ 0)
    (h : dim % (gs : ℤ) = 0) : backoff dim gs = gs := by
  unfold backoff
  cases gs with
  | zero => exact absurd rfl hgs
  | succ g =>
    show backoffFuel dim (g + 1) (g + 1) = g + 1
    simp only [backoffFuel]
    rw [if_neg (by omega : ¬ (g + 1 = 0)), if_pos h]

theorem backoff_step {dim : ℤ} {gs : ℕ} (hgs : gs ≠ 0)
    (h : ¬ dim % (gs : ℤ) = 0) : backoff dim gs = backoff dim (gs / 2) := by
  unfold backoff
  cases gs with
  | zero => exact absurd rfl hgs
  | succ g =>
    rw [show backoffFuel dim (g + 1) (g + 1) =
        backoffFuel dim g ((g + 1) / 2) from by
      simp only [backoffFuel]
      rw [if_neg (by omega : ¬ (g + 1 = 0)), if_neg h]]
    exact backoffFuel_irrel dim g ((g + 1) / 2) ((g + 1) / 2) (by omega) (by omega)

theorem backoff_pow2 (dim : ℤ) (k : ℕ) :
    backoff dim (2 ^ k) ∣ 2 ^ k ∧ ((backoff dim (2 ^ k) : ℕ) : ℤ) ∣ dim ∧
    ∀ d : ℕ, d ∣ 2 ^ k → ((d : ℕ) : ℤ) ∣ dim → d ≤ backoff dim (2 ^ k) := by
  induction k with
  | zero =>
    have h1 : backoff dim (2 ^ 0) = 1 := by
      apply backoff_stop (by norm_num)
      simp [Int.emod_one]
    rw [pow_zero] at h1 ⊢
    rw [h1]
    refine ⟨dvd_refl 1, one_dvd dim, ?_⟩
    intro d hd _
    exact Nat.le_of_dvd one_pos hd
  | succ k ih =>
    by_cases h : dim % ((2 ^ (k + 1) : ℕ) : ℤ) = 0
    · rw [backoff_stop (by positivity) h]
      refine ⟨dvd_refl _, Int.dvd_of_emod_eq_zero h, ?_⟩
      intro d hd _
      exact Nat.le_of_dvd (by positivity) hd
    · rw [backoff_step (by positivity) h,
        show (2 ^ (k + 1) : ℕ) / 2 = 2 ^ k from by
          rw [pow_succ, Nat.mul_div_cancel _ (by norm_num)]]
      refine ⟨ih.1.trans ⟨2, by rw [pow_succ]⟩, ih.2.1, ?_⟩
      · intro d hd hdvd
        rcases (Nat.dvd_prime_pow Nat.prime_two).mp hd with ⟨j, hj, rfl⟩
        rcases Nat.lt_or_ge j (k + 1) with hjk | hjk
        · exact ih.2.2 _ (pow_dvd_pow 2 (by omega)) hdvd
        · exfalso
          have hje : j = k + 1 := by omega
          subst hje
          exact h (Int.emod_eq_zero_of_dvd hdvd)


/-- C8 (counterexample): with embedding dimension 8 and requested
group size 48, the halving loop yields 1, but the largest power-of-two
divisor of 48 that divides 8 is `2^3 = 8`: the loop's floor-halving
(48 → 24 → 12 → 6 → 3 → 1) skips it. -/
theorem backoff_not_largest_pow2_divisor :
    backoff 8 48 = 1 ∧ (2 ^ 3 ∣ 48) ∧ (((2 ^ 3 : ℕ) : ℤ) ∣ 8) ∧
    ¬ (2 ^ 3 ≤ backoff 8 48) := by
  refine ⟨by decide, by decide, by decide, by decide⟩

/-- C8 (amended): when the requested group size is a power of two
(as the only in-repo request, the default 64, is), the backed-off group
size is the largest power-of-two divisor of the request that also
divides the embedding dimension; `version2_export` records exactly this
backed-off size in header bytes 37-40 (and, per the tensor-order
theorem, uses it for quantization).  For non-power-of-two requests the
halving loop can undershoot this characterization. -/
theorem backoff_pow2_largest_divisor (nv : ℤ) (m : Model) (k : ℕ) (l0 : Layer)
    (ls : List Layer) (hl : m.layers = l0 :: ls)
    (hall : (quant_weights m).all
      (fun w => w.data.length % (backoff m.params.dim (2 ^ k)) == 0) = true) :
    (backoff m.params.dim (2 ^ k) ∣ 2 ^ k) ∧
    (((backoff m.params.dim (2 ^ k) : ℕ) : ℤ) ∣ m.params.dim) ∧
    (∀ d : ℕ, d ∣ 2 ^ k → ((d : ℕ) : ℤ) ∣ m.params.dim →
      d ≤ backoff m.params.dim (2 ^ k)) ∧
    (∃ H rest, version2_export nv m (2 ^ k) = .ok (Chunk.header H :: rest) ∧
      (H.drop 37).take 4 = le32 ((backoff m.params.dim (2 ^ k) : ℕ) : ℤ)) := by
  obtain ⟨h1, h2, h3⟩ := backoff_pow2 m.params.dim k
  exact ⟨h1, h2, h3, ⟨_, _, version2_export_cons hl hall, headerBytes_gs_slice _ _ _ _ _⟩⟩

/-- Witness for the amended C8 at `mTest` (dim 2), request `2^6 = 64`:
the backoff result is 2. -/
theorem backoff_pow2_largest_divisor_witness :
    mTest.layers = testLayer :: [] ∧
    backoff mTest.params.dim (2 ^ 6) = 2 ∧
    (backoff mTest.params.dim (2 ^ 6) ∣ 2 ^ 6) ∧
    (((backoff mTest.params.dim (2 ^ 6) : ℕ) : ℤ) ∣ mTest.params.dim) ∧
    (∀ d : ℕ, d ∣ 2 ^ 6 → ((d : ℕ) : ℤ) ∣ mTest.params.dim →
      d ≤ backoff mTest.params.dim (2 ^ 6)) ∧
    (∃ H rest, version2_export 0 mTest (2 ^ 6) = .ok (Chunk.header H :: rest) ∧
      (H.drop 37).take 4 = le32 ((backoff mTest.params.dim (2 ^ 6) : ℕ) : ℤ)) := by
  have hl : mTest.layers = testLayer :: [] := rfl
  have hall : (quant_weights mTest).all
      (fun w => w.data.length % (backoff mTest.params.dim (2 ^ 6)) == 0) = true := by
    with_unfolding_all decide
  obtain ⟨h1, h2, h3, h4⟩ := backoff_pow2_largest_divisor 0 mTest 6 testLayer [] hl hall
  exact ⟨hl, by decide, h1, h2, h3, h4⟩

end PiLlama
